import Mathlib

/-!
Verification of the cloudflare-worker-jwt token library (src/index.ts).

JavaScript strings are modelled as List Char, byte sequences as List Nat
(each element below 256).  The platform primitives btoa and atob are
modelled as standard base64 encoding and the WHATWG forgiving base64
decode; the pair escape plus decodeURIComponent is modelled as strict
UTF-8 decoding; JSON.parse and JSON.stringify are modelled over a Json
value type whose numbers are integers (fractional and exponent number
syntax is outside the model, as are lone UTF-16 surrogates, which the
Char type cannot represent).  The asynchronous SubtleCrypto collaborator
is a parameter: an arbitrary record of importKey, sign and verify
functions, and Date.now is a parameter giving the current Unix time in
seconds.  Thrown JavaScript values are modelled with an Except monad,
distinguishing Error objects from thrown plain strings.
-/

/-- ASCII whitespace, the set stripped by the WHATWG forgiving base64 decode. -/
def isAsciiWs (c : Char) : Bool :=
  c = ' ' || c = '\t' || c = '\n' || c = '\x0d' || c = '\x0c'

/-- Character class of the JavaScript regular expression backslash-s
(whitespace); only the ASCII members matter for the code paths modelled here,
the Unicode members are included for the main space-like code points. -/
def isJsWs (c : Char) : Bool :=
  isAsciiWs c || c = '\x0b' || c = '\xa0' || c = ' ' || c = ' ' || c = '﻿'

/-- JavaScript String.prototype.split with a one-character separator:
splits on every occurrence; the empty string yields a single empty group. -/
def jsSplit (sep : Char) : List Char → List (List Char)
  | [] => [[]]
  | c :: rest =>
    if c = sep then [] :: jsSplit sep rest
    else
      match jsSplit sep rest with
      | [] => [[c]]
      | g :: gs => (c :: g) :: gs

/-- JavaScript String.prototype.startsWith for a literal pattern. -/
def startsWithStr : List Char → List Char → Bool
  | [], _ => true
  | _ :: _, [] => false
  | p :: ps, c :: cs => p = c && startsWithStr ps cs

/-- The standard base64 alphabet, index 0 to 63. -/
def b64Alphabet : List Char :=
  "ABCDEFGHIJKLMNOPQRSTUVWXYZabcdefghijklmnopqrstuvwxyz0123456789+/".data

/-- Sextet value to base64 character (defaults to the first letter for
out-of-range input, which never occurs on valid byte input). -/
def b64EncChar (n : Nat) : Char := b64Alphabet.getD n 'A'

/-- Base64 character to sextet value; none for every character outside the
alphabet (in particular for the padding character). -/
def b64DecChar (c : Char) : Option Nat :=
  let i := b64Alphabet.indexOf c
  if i < 64 then some i else none

/-- The sextet stream of a byte sequence: groups of three bytes yield four
sextets, a trailing group of one or two bytes yields two or three sextets
with zero-filled low bits. -/
def sextets : List Nat → List Nat
  | [] => []
  | [b0] => [b0 / 4, b0 % 4 * 16]
  | [b0, b1] => [b0 / 4, b0 % 4 * 16 + b1 / 16, b1 % 16 * 4]
  | b0 :: b1 :: b2 :: rest =>
      b0 / 4 :: (b0 % 4 * 16 + b1 / 16) :: (b1 % 16 * 4 + b2 / 64) :: b2 % 64 :: sextets rest

/-- Padding characters appended by standard base64 for a byte count. -/
def b64Pad (n : Nat) : List Char :=
  match n % 3 with
  | 1 => ['=', '=']
  | 2 => ['=']
  | _ => []

/-- Model of the platform primitive btoa on a binary string (byte list):
standard base64 with padding. -/
def btoaFn (bytes : List Nat) : List Char :=
  (sextets bytes).map b64EncChar ++ b64Pad bytes.length

/-- Remove up to two trailing padding characters (step of the forgiving
base64 decode). -/
def stripTrailingEq (l : List Char) : List Char :=
  if l.getLast? = some '=' then
    let l2 := l.dropLast
    if l2.getLast? = some '=' then l2.dropLast else l2
  else l

/-- Map a function returning Option over a list, failing if any element
fails. -/
def optMapM (f : α → Option β) : List α → Option (List β)
  | [] => some []
  | a :: l =>
    match f a, optMapM f l with
    | some b, some bs => some (b :: bs)
    | _, _ => none

/-- Reassemble bytes from a sextet stream: four sextets yield three bytes; a
trailing pair yields one byte and a trailing triple two bytes, the leftover
low bits being discarded (forgiving decode). -/
def decodeQuads : List Nat → List Nat
  | s0 :: s1 :: s2 :: s3 :: rest =>
      (s0 * 4 + s1 / 16) :: (s1 % 16 * 16 + s2 / 4) :: (s2 % 4 * 64 + s3) :: decodeQuads rest
  | [s0, s1] => [s0 * 4 + s1 / 16]
  | [s0, s1, s2] => [s0 * 4 + s1 / 16, s1 % 16 * 16 + s2 / 4]
  | _ => []

/-- Final stage of the forgiving base64 decode, after whitespace and
padding removal: reject a remainder of one, reject characters outside the
alphabet (including any remaining padding character), reassemble bytes. -/
def atobPipe (d : List Char) : Option (List Nat) :=
  if d.length % 4 = 1 then none
  else (optMapM b64DecChar d).map decodeQuads

/-- Model of the platform primitive atob: the WHATWG forgiving base64
decode.  Strips ASCII whitespace, strips complete trailing padding when the
length is a multiple of four, and hands over to the final stage. -/
def atobFn (s : List Char) : Option (List Nat) :=
  atobPipe
    (if (s.filter (fun c => !isAsciiWs c)).length % 4 = 0 then
      stripTrailingEq (s.filter (fun c => !isAsciiWs c))
    else s.filter (fun c => !isAsciiWs c))

/-- The global replacement of plus by dash in stringify. -/
def subPlus (c : Char) : Char := if c = '+' then '-' else c

/-- The global replacement of slash by underscore in stringify. -/
def subSlash (c : Char) : Char := if c = '/' then '_' else c

/-- The global replacement of dash by plus in parse. -/
def subDash (c : Char) : Char := if c = '-' then '+' else c

/-- The global replacement of underscore by slash in parse. -/
def subUnder (c : Char) : Char := if c = '_' then '/' else c

namespace Base64URL

/-- Base64URL.stringify from the source: btoa of the byte string, then
delete every padding character, then substitute the url alphabet. -/
def stringify (a : List Nat) : List Char :=
  (((btoaFn a).filter (fun c => c ≠ '=')).map subPlus).map subSlash

/-- Base64URL.parse from the source: substitute the standard alphabet back,
delete whitespace, then atob. -/
def parse (s : List Char) : Option (List Nat) :=
  atobFn (((s.map subDash).map subUnder).filter (fun c => !isJsWs c))

end Base64URL

/-- UTF-8 encoding of one Unicode scalar value (1 to 4 bytes). -/
def utf8EncodeChar (c : Char) : List Nat :=
  let n := c.toNat
  if n < 0x80 then [n]
  else if n < 0x800 then [0xc0 + n / 64, 0x80 + n % 64]
  else if n < 0x10000 then [0xe0 + n / 4096, 0x80 + n / 64 % 64, 0x80 + n % 64]
  else [0xf0 + n / 262144, 0x80 + n / 4096 % 64, 0x80 + n / 64 % 64, 0x80 + n % 64]

/-- UTF-8 encoding of a string; models unescape(encodeURIComponent(s)) read
as a byte sequence. -/
def utf8Encode (s : List Char) : List Nat :=
  (s.map utf8EncodeChar).flatten

/-- Fuel-indexed strict UTF-8 decoder; one unit of fuel per decoded
character. -/
def utf8DecodeAux : Nat → List Nat → Option (List Char)
  | 0, _ => none
  | _ + 1, [] => some []
  | fuel + 1, b :: rest =>
    if b < 0x80 then
      (utf8DecodeAux fuel rest).map (fun cs => Char.ofNat b :: cs)
    else if b < 0xc2 then none
    else if b < 0xe0 then
      match rest with
      | b1 :: rest2 =>
        if 0x80 ≤ b1 ∧ b1 < 0xc0 then
          (utf8DecodeAux fuel rest2).map
            (fun cs => Char.ofNat ((b - 0xc0) * 64 + (b1 - 0x80)) :: cs)
        else none
      | [] => none
    else if b < 0xf0 then
      match rest with
      | b1 :: b2 :: rest2 =>
        if 0x80 ≤ b1 ∧ b1 < 0xc0 ∧ 0x80 ≤ b2 ∧ b2 < 0xc0 then
          let n := (b - 0xe0) * 4096 + (b1 - 0x80) * 64 + (b2 - 0x80)
          if n < 0x800 ∨ (0xd800 ≤ n ∧ n < 0xe000) then none
          else (utf8DecodeAux fuel rest2).map (fun cs => Char.ofNat n :: cs)
        else none
      | _ => none
    else if b < 0xf5 then
      match rest with
      | b1 :: b2 :: b3 :: rest2 =>
        if 0x80 ≤ b1 ∧ b1 < 0xc0 ∧ 0x80 ≤ b2 ∧ b2 < 0xc0 ∧ 0x80 ≤ b3 ∧ b3 < 0xc0 then
          let n := (b - 0xf0) * 262144 + (b1 - 0x80) * 4096 + (b2 - 0x80) * 64 + (b3 - 0x80)
          if n < 0x10000 ∨ 0x110000 ≤ n then none
          else (utf8DecodeAux fuel rest2).map (fun cs => Char.ofNat n :: cs)
        else none
      | _ => none
    else none

/-- Strict UTF-8 decoding of a byte sequence; models
decodeURIComponent(escape(bytes)), which raises URIError (here: none) on any
malformed, overlong, surrogate or out-of-range sequence. -/
def utf8Decode (bytes : List Nat) : Option (List Char) :=
  utf8DecodeAux (bytes.length + 1) bytes

mutual

/-- JSON values as produced by JSON.parse; numbers are restricted to
integers (fractional or exponent syntax is outside the model).  Arrays and
objects carry their own mutually inductive sequence types so that every
function over them is structurally recursive and computable. -/
inductive Json where
  | jnull : Json
  | jbool : Bool → Json
  | jnum : Int → Json
  | jstr : List Char → Json
  | jarr : JsonList → Json
  | jobj : JsonFields → Json

/-- Sequence of JSON array elements. -/
inductive JsonList where
  | nil : JsonList
  | cons : Json → JsonList → JsonList

/-- Sequence of JSON object members (key, value). -/
inductive JsonFields where
  | nil : JsonFields
  | cons : List Char → Json → JsonFields → JsonFields

end

/-- Build object members from a plain list, for readable literals. -/
def jsonFieldsOf : List (List Char × Json) → JsonFields
  | [] => .nil
  | (k, v) :: fs => .cons k v (jsonFieldsOf fs)

/-- Build array elements from a plain list, for readable literals. -/
def jsonListOf : List Json → JsonList
  | [] => .nil
  | x :: xs => .cons x (jsonListOf xs)

/-- True when the key occurs in none of the members. -/
def keyAbsent (k : List Char) : JsonFields → Bool
  | .nil => true
  | .cons k0 _ fs => decide (k0 ≠ k) && keyAbsent k fs

/-- JavaScript object property update: overwrite in place when the key is
present (keeping its position), else append.  This is the semantics of both
object spread merge and property assignment. -/
def objInsert : JsonFields → List Char → Json → JsonFields
  | .nil, k, v => .cons k v .nil
  | .cons k0 v0 fs, k, v =>
    if k0 = k then .cons k0 v fs else .cons k0 v0 (objInsert fs k v)

/-- Property lookup (keys are unique in every object built by this model,
so first match is the match). -/
def lookupField : JsonFields → List Char → Option Json
  | .nil, _ => none
  | .cons k0 v0 fs, k => if k0 = k then some v0 else lookupField fs k

/-- Concatenation of member sequences. -/
def fieldsAppend : JsonFields → JsonFields → JsonFields
  | .nil, gs => gs
  | .cons k v fs, gs => .cons k v (fieldsAppend fs gs)

/-- Apply the parsed members in order to an initially empty object, later
duplicate keys overwriting earlier ones in place, as JSON.parse does. -/
def buildObjAux : JsonFields → JsonFields → JsonFields
  | acc, .nil => acc
  | acc, .cons k v fs => buildObjAux (objInsert acc k v) fs

def buildObj (fs : JsonFields) : JsonFields := buildObjAux .nil fs

mutual

/-- Well-formedness as a JavaScript runtime value: object keys are unique
at every level (a JavaScript object cannot hold a duplicate key). -/
def Json.wf : Json → Bool
  | .jnull => true
  | .jbool _ => true
  | .jnum _ => true
  | .jstr _ => true
  | .jarr xs => JsonList.wfL xs
  | .jobj fs => JsonFields.wfF fs

def JsonList.wfL : JsonList → Bool
  | .nil => true
  | .cons x xs => Json.wf x && JsonList.wfL xs

def JsonFields.wfF : JsonFields → Bool
  | .nil => true
  | .cons k v fs => keyAbsent k fs && Json.wf v && JsonFields.wfF fs

end

mutual

/-- Structural size, used as parser fuel accounting. -/
def Json.jsize : Json → Nat
  | .jnull => 1
  | .jbool _ => 1
  | .jnum _ => 1
  | .jstr _ => 1
  | .jarr xs => 1 + JsonList.lsize xs
  | .jobj fs => 1 + JsonFields.fsize fs

def JsonList.lsize : JsonList → Nat
  | .nil => 0
  | .cons x xs => 1 + Json.jsize x + JsonList.lsize xs

def JsonFields.fsize : JsonFields → Nat
  | .nil => 0
  | .cons _ v fs => 1 + Json.jsize v + JsonFields.fsize fs

end

def isDecDigit (c : Char) : Bool := '0' ≤ c && c ≤ '9'

def decDigitChar (n : Nat) : Char :=
  match n with
  | 0 => '0' | 1 => '1' | 2 => '2' | 3 => '3' | 4 => '4'
  | 5 => '5' | 6 => '6' | 7 => '7' | 8 => '8' | _ => '9'

def hexDigitChar (n : Nat) : Char :=
  match n with
  | 0 => '0' | 1 => '1' | 2 => '2' | 3 => '3' | 4 => '4'
  | 5 => '5' | 6 => '6' | 7 => '7' | 8 => '8' | 9 => '9'
  | 10 => 'a' | 11 => 'b' | 12 => 'c' | 13 => 'd' | 14 => 'e' | _ => 'f'

def hexVal (c : Char) : Option Nat :=
  if '0' ≤ c ∧ c ≤ '9' then some (c.toNat - 48)
  else if 'a' ≤ c ∧ c ≤ 'f' then some (c.toNat - 87)
  else if 'A' ≤ c ∧ c ≤ 'F' then some (c.toNat - 55)
  else none

/-- Fuel-indexed extraction of decimal digits, most significant first;
empty for zero. -/
def natDigitsAux : Nat → Nat → List Char
  | 0, _ => []
  | fuel + 1, n =>
    if n = 0 then [] else natDigitsAux fuel (n / 10) ++ [decDigitChar (n % 10)]

/-- Decimal digits of a natural number, most significant first. -/
def natToChars (n : Nat) : List Char :=
  if n = 0 then ['0'] else natDigitsAux (n + 1) n

/-- JavaScript decimal rendering of an integer. -/
def intToChars (i : Int) : List Char :=
  if i < 0 then '-' :: natToChars i.natAbs else natToChars i.natAbs

/-- JSON.stringify escaping of one string character. -/
def escChar (c : Char) : List Char :=
  if c = '"' then ['\\', '"']
  else if c = '\\' then ['\\', '\\']
  else if c = '\x08' then ['\\', 'b']
  else if c = '\x0c' then ['\\', 'f']
  else if c = '\n' then ['\\', 'n']
  else if c = '\x0d' then ['\\', 'r']
  else if c = '\t' then ['\\', 't']
  else if c.toNat < 0x20 then
    ['\\', 'u', '0', '0', hexDigitChar (c.toNat / 16), hexDigitChar (c.toNat % 16)]
  else [c]

/-- JSON.stringify rendering of a string literal. -/
def quoteStr (s : List Char) : List Char :=
  '"' :: (s.map escChar).flatten ++ ['"']

mutual

/-- Model of JSON.stringify (no indentation, no replacer). -/
def jsonStringify : Json → List Char
  | .jnull => "null".data
  | .jbool true => "true".data
  | .jbool false => "false".data
  | .jnum i => intToChars i
  | .jstr s => quoteStr s
  | .jarr xs => '[' :: stringifyElems xs ++ [']']
  | .jobj fs => '\x7b' :: stringifyFields fs ++ ['\x7d']

def stringifyElems : JsonList → List Char
  | .nil => []
  | .cons x .nil => jsonStringify x
  | .cons x xs => jsonStringify x ++ ',' :: stringifyElems xs

def stringifyFields : JsonFields → List Char
  | .nil => []
  | .cons k v .nil => quoteStr k ++ ':' :: jsonStringify v
  | .cons k v fs => quoteStr k ++ ':' :: jsonStringify v ++ ',' :: stringifyFields fs

end

/-- JSON insignificant whitespace. -/
def isJsonWs (c : Char) : Bool :=
  c = ' ' || c = '\t' || c = '\n' || c = '\x0d'

def skipWs (s : List Char) : List Char := s.dropWhile isJsonWs

/-- Fuel-indexed body of a JSON string literal after the opening quote:
returns the decoded characters and the input after the closing quote.  Raw
control characters are rejected; the escape forms of RFC 8259 are
recognized; a backslash-u escape denoting a surrogate half is outside the
model.  One unit of fuel per source construct. -/
def parseStrAux : Nat → List Char → Option (List Char × List Char)
  | 0, _ => none
  | _ + 1, [] => none
  | fuel + 1, c :: rest =>
    if c = '"' then some ([], rest)
    else if c = '\\' then
      match rest with
      | [] => none
      | e :: rest2 =>
        if e = '"' then (parseStrAux fuel rest2).map (fun p => ('"' :: p.1, p.2))
        else if e = '\\' then (parseStrAux fuel rest2).map (fun p => ('\\' :: p.1, p.2))
        else if e = '/' then (parseStrAux fuel rest2).map (fun p => ('/' :: p.1, p.2))
        else if e = 'b' then (parseStrAux fuel rest2).map (fun p => ('\x08' :: p.1, p.2))
        else if e = 'f' then (parseStrAux fuel rest2).map (fun p => ('\x0c' :: p.1, p.2))
        else if e = 'n' then (parseStrAux fuel rest2).map (fun p => ('\n' :: p.1, p.2))
        else if e = 'r' then (parseStrAux fuel rest2).map (fun p => ('\x0d' :: p.1, p.2))
        else if e = 't' then (parseStrAux fuel rest2).map (fun p => ('\t' :: p.1, p.2))
        else if e = 'u' then
          match rest2 with
          | h1 :: h2 :: h3 :: h4 :: rest3 =>
            match hexVal h1, hexVal h2, hexVal h3, hexVal h4 with
            | some x1, some x2, some x3, some x4 =>
              let n := x1 * 4096 + x2 * 256 + x3 * 16 + x4
              if 0xd800 ≤ n ∧ n < 0xe000 then none
              else (parseStrAux fuel rest3).map (fun p => (Char.ofNat n :: p.1, p.2))
            | _, _, _, _ => none
          | _ => none
        else none
    else if c.toNat < 0x20 then none
    else (parseStrAux fuel rest).map (fun p => (c :: p.1, p.2))

/-- JSON string literal body with sufficient fuel for its input. -/
def parseStr (s : List Char) : Option (List Char × List Char) :=
  parseStrAux (s.length + 1) s

/-- JSON natural number literal: one or more digits, no leading zero
unless the number is zero itself. -/
def parseNat (s : List Char) : Option (Nat × List Char) :=
  match s.takeWhile isDecDigit with
  | [] => none
  | d :: tail =>
    if d = '0' ∧ tail ≠ [] then none
    else some ((d :: tail).foldl (fun a c => a * 10 + (c.toNat - 48)) 0,
      s.dropWhile isDecDigit)

/-- The optional leading minus of a JSON number literal. -/
def parseIntCore (s : List Char) : Option (Int × List Char) :=
  match s with
  | '-' :: t2 => (parseNat t2).map (fun p => (-(p.1 : Int), p.2))
  | _ => (parseNat s).map (fun p => ((p.1 : Int), p.2))

/-- JSON number literal restricted to integers: optional minus then digits;
a following fraction or exponent marker is outside the model and rejected. -/
def parseNumber (s : List Char) : Option (Json × List Char) :=
  match parseIntCore s with
  | none => none
  | some (i, rest) =>
    match rest with
    | c :: _ => if c = '.' ∨ c = 'e' ∨ c = 'E' then none else some (.jnum i, rest)
    | [] => some (.jnum i, rest)

mutual

/-- Fuel-indexed model of JSON.parse for one value: skips leading
whitespace, dispatches on the first character, returns the value and the
unconsumed input. -/
def parseVal : Nat → List Char → Option (Json × List Char)
  | 0, _ => none
  | fuel + 1, s =>
    match skipWs s with
    | [] => none
    | c :: rest =>
      if c = 'n' then
        if startsWithStr "ull".data rest then some (.jnull, rest.drop 3) else none
      else if c = 't' then
        if startsWithStr "rue".data rest then some (.jbool true, rest.drop 3) else none
      else if c = 'f' then
        if startsWithStr "alse".data rest then some (.jbool false, rest.drop 4) else none
      else if c = '"' then (parseStr rest).map (fun p => (.jstr p.1, p.2))
      else if c = '[' then
        match skipWs rest with
        | ']' :: r2 => some (.jarr .nil, r2)
        | _ => (parseElems fuel rest).map (fun p => (.jarr p.1, p.2))
      else if c = '\x7b' then
        match skipWs rest with
        | '\x7d' :: r2 => some (.jobj .nil, r2)
        | _ => (parseFields fuel rest).map (fun p => (.jobj (buildObj p.1), p.2))
      else if c = '-' ∨ isDecDigit c then parseNumber (c :: rest)
      else none

/-- Comma-separated values up to the closing bracket. -/
def parseElems : Nat → List Char → Option (JsonList × List Char)
  | 0, _ => none
  | fuel + 1, s =>
    match parseVal fuel s with
    | none => none
    | some (v, r) =>
      match skipWs r with
      | ',' :: r2 => (parseElems fuel r2).map (fun p => (.cons v p.1, p.2))
      | ']' :: r2 => some (.cons v .nil, r2)
      | _ => none

/-- Comma-separated string-keyed members up to the closing brace, in source
order (duplicates not yet merged). -/
def parseFields : Nat → List Char → Option (JsonFields × List Char)
  | 0, _ => none
  | fuel + 1, s =>
    match skipWs s with
    | '"' :: r =>
      match parseStr r with
      | none => none
      | some (k, r2) =>
        match skipWs r2 with
        | ':' :: r3 =>
          match parseVal fuel r3 with
          | none => none
          | some (v, r4) =>
            match skipWs r4 with
            | ',' :: r5 => (parseFields fuel r5).map (fun p => (.cons k v p.1, p.2))
            | '\x7d' :: r5 => some (.cons k v .nil, r5)
            | _ => none
        | _ => none
    | _ => none

end

/-- Model of JSON.parse: parse one value, require only whitespace after it. -/
def jsonParse (s : List Char) : Option Json :=
  match parseVal (s.length + 1) s with
  | some (v, r) => if skipWs r = [] then some v else none
  | none => none

/-- A thrown JavaScript value: an Error object, a thrown plain string (the
source throws the strings PARSE_ERROR, NOT_YET_VALID, EXPIRED), a
TypeError, or a DOMException from a platform primitive. -/
inductive JsException where
  | errorObj (msg : String)
  | strTag (tag : String)
  | typeErr (msg : String)
  | domExc (msg : String)
deriving DecidableEq, Repr

/-- Parameters bound to an algorithm identifier: primitive family name,
optional named curve, digest name (the source nests the digest under a
hash object with a name field; it is flattened here). -/
structure AlgParams where
  name : String
  namedCurve : Option String
  hash : String
deriving DecidableEq, Repr

/-- The external cryptographic primitive collaborator (crypto.subtle),
abstract over its key handle type and behavior.  importKey receives the
key format, the key bytes, the algorithm parameters and the usages list
(the extractable flag, always false in the source, is omitted). -/
structure SubtleCrypto (K : Type) where
  importKey : String → List Nat → AlgParams → List String → Except JsException K
  sign : AlgParams → K → List Nat → Except JsException (List Nat)
  verify : AlgParams → K → List Nat → List Nat → Except JsException Bool

namespace Jwt

/-- The static algorithm registry of the source (this.algorithms). -/
def algorithms (id : List Char) : Option AlgParams :=
  if id = "ES256".data then some ⟨"ECDSA", some "P-256", "SHA-256"⟩
  else if id = "ES384".data then some ⟨"ECDSA", some "P-384", "SHA-384"⟩
  else if id = "ES512".data then some ⟨"ECDSA", some "P-521", "SHA-512"⟩
  else if id = "HS256".data then some ⟨"HMAC", none, "SHA-256"⟩
  else if id = "HS384".data then some ⟨"HMAC", none, "SHA-384"⟩
  else if id = "HS512".data then some ⟨"HMAC", none, "SHA-512"⟩
  else if id = "RS256".data then some ⟨"RSASSA-PKCS1-v1_5", none, "SHA-256"⟩
  else if id = "RS384".data then some ⟨"RSASSA-PKCS1-v1_5", none, "SHA-384"⟩
  else if id = "RS512".data then some ⟨"RSASSA-PKCS1-v1_5", none, "SHA-512"⟩
  else none

end Jwt

/-- Normalized sign options after the two merge steps of the source. -/
structure JwtSignOptionsN where
  algorithm : List Char
  header : JsonFields

/-- The options argument of sign as passed by the caller: absent, a bare
algorithm string, or an options object whose fields may each be omitted. -/
inductive JwtSignOptionsArg where
  | noArg
  | algStr (alg : List Char)
  | obj (algorithm : Option (List Char)) (header : Option JsonFields)

/-- The header object of the default options: typ JWT. -/
def jwtDefaultHeader : JsonFields := .cons "typ".data (.jstr "JWT".data) .nil

/-- Source lines 150 to 153: a bare string is expanded to an options
object; the default parameter supplies algorithm HS256 and the typ JWT
header; then the spread merge with defaults algorithm HS256 and the same
header lets every field of the options object win. -/
def normSignOptions : JwtSignOptionsArg → JwtSignOptionsN
  | .noArg => ⟨"HS256".data, jwtDefaultHeader⟩
  | .algStr a => ⟨a, jwtDefaultHeader⟩
  | .obj a h => ⟨a.getD "HS256".data, h.getD jwtDefaultHeader⟩

/-- Normalized verify options after the merge of the source. -/
structure JwtVerifyOptionsN where
  algorithm : List Char
  throwErr : Bool
deriving DecidableEq, Repr

/-- The options argument of verify as passed by the caller. -/
inductive JwtVerifyOptionsArg where
  | noArg
  | algStr (alg : List Char)
  | obj (algorithm : Option (List Char)) (throwErr : Option Bool)

/-- The literal default parameter of verify in the source (line 187):
algorithm ES256, throwErr false. -/
def verifyDefaultArg : Option (List Char) × Option Bool :=
  (some "ES256".data, some false)

/-- The spread merge of source line 191: algorithm HS256 and throwErr
false as base, every present field of the incoming options winning. -/
def mergeVerifyOptions (a : Option (List Char)) (t : Option Bool) : JwtVerifyOptionsN :=
  ⟨a.getD "HS256".data, t.getD false⟩

/-- Source lines 187 to 191: with no argument the default parameter (ES256)
is merged; a bare string becomes an object with throwErr false; an
options object is merged field by field. -/
def normVerifyOptions : JwtVerifyOptionsArg → JwtVerifyOptionsN
  | .noArg => mergeVerifyOptions verifyDefaultArg.1 verifyDefaultArg.2
  | .algStr a => mergeVerifyOptions (some a) (some false)
  | .obj a t => mergeVerifyOptions a t

/-- JavaScript truthiness of a JSON value (objects and arrays are always
truthy; null, false, zero and the empty string are falsy). -/
def Json.truthy : Json → Bool
  | .jnull => false
  | .jbool b => b
  | .jnum n => decide (n ≠ 0)
  | .jstr s => decide (s ≠ [])
  | .jarr _ => true
  | .jobj _ => true

/-- JavaScript property access; none models undefined (non-objects carry
none of the claim properties). -/
def Json.getProp : Json → List Char → Option Json
  | .jobj fs, k => lookupField fs k
  | _, _ => none

/-- JavaScript numeric coercion for the temporal comparisons; none models
NaN.  String and container coercion is approximated as NaN; the temporal
claims only exercise numbers. -/
def jsToNumber : Json → Option Int
  | .jnull => some 0
  | .jbool b => some (if b then 1 else 0)
  | .jnum n => some n
  | _ => none

/-- Source line 210: payload.nbf is truthy and exceeds the current time. -/
def nbfViolated (payload : Json) (now : Int) : Bool :=
  match payload.getProp "nbf".data with
  | none => false
  | some v =>
    v.truthy && (match jsToNumber v with | some n => decide (n > now) | none => false)

/-- Source line 215: payload.exp is truthy and is at most the current
time. -/
def expViolated (payload : Json) (now : Int) : Bool :=
  match payload.getProp "exp".data with
  | none => false
  | some v =>
    v.truthy && (match jsToNumber v with | some n => decide (n ≤ now) | none => false)

namespace Jwt

/-- The try block of the segment decoder: atob, then UTF-8 decode, then
JSON.parse; every failure inside the try is caught and becomes null. -/
def tryParseSegment (r : List Char) : Json :=
  match atobFn r with
  | none => .jnull
  | some bytes =>
    match utf8Decode bytes with
    | none => .jnull
    | some s =>
      match jsonParse s with
      | none => .jnull
      | some v => v

/-- Source _decodePayload: restore padding by length remainder (a remainder
of one throws outside the try block), then parse, any parse failure
yielding null. -/
def _decodePayload (raw : List Char) : Except JsException Json :=
  if raw.length % 4 = 0 then .ok (tryParseSegment raw)
  else if raw.length % 4 = 2 then .ok (tryParseSegment (raw ++ ['=', '=']))
  else if raw.length % 4 = 3 then .ok (tryParseSegment (raw ++ ['=']))
  else .error (.errorObj "Illegal base64url string!")

/-- The base64url to base64 character substitution applied by decode to a
segment before the segment decoder. -/
def segSub (s : List Char) : List Char :=
  (s.map subDash).map subUnder

/-- The result object of decode. -/
structure JwtData where
  header : Json
  payload : Json

/-- Source decode: substitute and decode the first and the second
dot-separated segment.  Indexing a missing segment gives undefined, on
which the substitution call throws a TypeError. -/
def decode (token : List Char) : Except JsException JwtData :=
  match (jsSplit '.' token)[0]? with
  | none => .error (.typeErr "Cannot read properties of undefined")
  | some s0 =>
    match _decodePayload (segSub s0) with
    | .error e => .error e
    | .ok h =>
      match (jsSplit '.' token)[1]? with
      | none => .error (.typeErr "Cannot read properties of undefined")
      | some s1 =>
        match _decodePayload (segSub s1) with
        | .error e => .error e
        | .ok p => .ok ⟨h, p⟩

/-- Source _utf8ToUint8Array: UTF-8 encode (unescape of encodeURIComponent),
btoa, then Base64URL.parse. -/
def _utf8ToUint8Array (str : List Char) : Option (List Nat) :=
  Base64URL.parse (btoaFn (utf8Encode str))

/-- Source _str2ab: atob, then the character codes as bytes; atob throws a
DOMException on malformed base64. -/
def _str2ab (str : List Char) : Except JsException (List Nat) :=
  match atobFn str with
  | none => .error (.domExc "InvalidCharacterError")
  | some bytes => .ok bytes

/-- Scan for the earliest occurrence of the five-dash delimiter, failing at
a line terminator (the regular expression dot does not cross lines); lazy
matching of the source PEM regular expressions. -/
def scanDashes : Nat → List Char → Option (List Char)
  | 0, _ => none
  | fuel + 1, s =>
    if startsWithStr "-----".data s then some (s.drop 5)
    else
      match s with
      | [] => none
      | c :: rest => if c = '\n' ∨ c = '\x0d' then none else scanDashes fuel rest

/-- Global removal of every lazy block tag ... ----- (the source
replace with the BEGIN and END delimiter regular expressions). -/
def removeDelim (tag : List Char) : Nat → List Char → List Char
  | 0, s => s
  | fuel + 1, s =>
    if startsWithStr tag s then
      match scanDashes ((s.drop tag.length).length + 1) (s.drop tag.length) with
      | some rest => removeDelim tag fuel rest
      | none =>
        match s with
        | [] => []
        | c :: cs => c :: removeDelim tag fuel cs
    else
      match s with
      | [] => []
      | c :: cs => c :: removeDelim tag fuel cs

/-- The PEM armor stripping of the source: delete the BEGIN delimiters,
the END delimiters, then all whitespace. -/
def pemStrip (secret : List Char) : List Char :=
  (removeDelim "-----END".data ((removeDelim "-----BEGIN".data (secret.length + 1) secret).length + 1)
      (removeDelim "-----BEGIN".data (secret.length + 1) secret)).filter (fun c => !isJsWs c)

/-- Key material resolution of verify (source lines 220 to 226): PEM
armored secrets become spki key bytes, anything else raw UTF-8 bytes. -/
def verifyKeyData (secret : List Char) : Except JsException (String × List Nat) :=
  if startsWithStr "-----BEGIN".data secret then
    match _str2ab (pemStrip secret) with
    | .error e => .error e
    | .ok bytes => .ok ("spki", bytes)
  else
    match _utf8ToUint8Array secret with
    | none => .error (.domExc "InvalidCharacterError")
    | some bytes => .ok ("raw", bytes)

/-- Key material resolution of sign (source lines 166 to 172): PEM armored
secrets become pkcs8 key bytes, anything else raw UTF-8 bytes. -/
def signKeyData (secret : List Char) : Except JsException (String × List Nat) :=
  if startsWithStr "-----BEGIN".data secret then
    match _str2ab (pemStrip secret) with
    | .error e => .error e
    | .ok bytes => .ok ("pkcs8", bytes)
  else
    match _utf8ToUint8Array secret with
    | none => .error (.domExc "InvalidCharacterError")
    | some bytes => .ok ("raw", bytes)

end Jwt

/-- typeof payload is object and payload is not null (source line 154). -/
def Json.isObjectLike : Json → Bool
  | .jarr _ => true
  | .jobj _ => true
  | _ => false

/-- The in-place property assignment payload.iat = now of source line 163.
On an object the property is updated in place or appended; the expando
property a JavaScript array would receive is invisible to JSON.stringify
and is not modelled. -/
def jsSetIat (payload : Json) (v : Json) : Json :=
  match payload with
  | .jobj fs => .jobj (objInsert fs "iat".data v)
  | p => p

namespace Jwt

/-- Source sign, with the side effect on the caller payload made explicit:
the returned pair carries the token and the payload object as it is after
the call (its iat property having been assigned in place). -/
def sign {K : Type} (subtle : SubtleCrypto K) (nowSec : Int) (payload : Json)
    (secret : List Char) (optionsArg : JwtSignOptionsArg) :
    Except JsException (List Char × Json) :=
  if ¬ payload.isObjectLike then .error (.errorObj "payload must be an object")
  else
    match algorithms (normSignOptions optionsArg).algorithm with
    | none => .error (.errorObj "algorithm not found")
    | some algorithm =>
      match _utf8ToUint8Array (jsonStringify (Json.jobj
          (objInsert (normSignOptions optionsArg).header "alg".data
            (.jstr (normSignOptions optionsArg).algorithm)))),
          _utf8ToUint8Array (jsonStringify (jsSetIat payload (.jnum nowSec))) with
      | some hb, some pb =>
        match signKeyData secret with
        | .error e => .error e
        | .ok (fmt, keyData) =>
          match subtle.importKey fmt keyData algorithm ["sign"] with
          | .error e => .error e
          | .ok key =>
            match _utf8ToUint8Array (Base64URL.stringify hb ++ '.' :: Base64URL.stringify pb) with
            | none => .error (.domExc "InvalidCharacterError")
            | some sbytes =>
              match subtle.sign algorithm key sbytes with
              | .error e => .error e
              | .ok sig =>
                .ok ((Base64URL.stringify hb ++ '.' :: Base64URL.stringify pb) ++
                  '.' :: Base64URL.stringify sig, jsSetIat payload (.jnum nowSec))
      | _, _ => .error (.domExc "InvalidCharacterError")

/-- Source verify: option normalization, three-part split check, registry
lookup, decode, truthiness gate, nbf and exp gates, key resolution and the
final primitive verification, whose boolean is returned directly. -/
def verify {K : Type} (subtle : SubtleCrypto K) (nowSec : Int) (token secret : List Char)
    (optionsArg : JwtVerifyOptionsArg) : Except JsException Bool :=
  if (jsSplit '.' token).length ≠ 3 then .error (.errorObj "token must consist of 3 parts")
  else
    match algorithms (normVerifyOptions optionsArg).algorithm with
    | none => .error (.errorObj "algorithm not found")
    | some algorithm =>
      match decode token with
      | .error e => .error e
      | .ok decoded =>
        if ¬ decoded.payload.truthy then
          if (normVerifyOptions optionsArg).throwErr then .error (.strTag "PARSE_ERROR")
          else .ok false
        else if nbfViolated decoded.payload nowSec then
          if (normVerifyOptions optionsArg).throwErr then .error (.strTag "NOT_YET_VALID")
          else .ok false
        else if expViolated decoded.payload nowSec then
          if (normVerifyOptions optionsArg).throwErr then .error (.strTag "EXPIRED")
          else .ok false
        else
          match verifyKeyData secret with
          | .error e => .error e
          | .ok (fmt, keyData) =>
            match subtle.importKey fmt keyData algorithm ["verify"] with
            | .error e => .error e
            | .ok key =>
              match Base64URL.parse ((jsSplit '.' token).getD 2 []) with
              | none => .error (.domExc "InvalidCharacterError")
              | some sig =>
                match _utf8ToUint8Array ((jsSplit '.' token).getD 0 [] ++
                    '.' :: (jsSplit '.' token).getD 1 []) with
                | none => .error (.domExc "InvalidCharacterError")
                | some data => subtle.verify algorithm key sig data

end Jwt

/-- A trivial SubtleCrypto implementation over a unit key type, with a fixed
verification answer, used to instantiate the theorems at concrete inputs. -/
def unitSubtle (b : Bool) : SubtleCrypto Unit :=
  ⟨fun _ _ _ _ => .ok (), fun _ _ _ => .ok [0], fun _ _ _ _ => .ok b⟩

/-- Every key of the first member sequence is absent from the second. -/
def keysAbsentIn : JsonFields → JsonFields → Bool
  | .nil, _ => true
  | .cons k _ fs, acc => keyAbsent k acc && keysAbsentIn fs acc

/-- The characters that may legally follow a serialized value inside a
larger serialized document: nothing, a separator, or a closing bracket. -/
def restStop : List Char → Bool
  | [] => true
  | c :: _ => c = ',' || c = ']' || c = '\x7d'

/-- Roundtrip statement for one value. -/
def PVal (v : Json) : Prop := ∀ (fuel : Nat) (rest : List Char), Json.jsize v ≤ fuel →
  restStop rest = true → Json.wf v = true →
  parseVal fuel (jsonStringify v ++ rest) = some (v, rest)

/-- Roundtrip statement for a nonempty array element list. -/
def QElems (xs : JsonList) : Prop := ∀ (fuel : Nat) (rest : List Char),
  JsonList.lsize xs ≤ fuel → JsonList.wfL xs = true → xs ≠ .nil →
  parseElems fuel (stringifyElems xs ++ ']' :: rest) = some (xs, rest)

/-- Roundtrip statement for a nonempty object member list. -/
def RFields (fs : JsonFields) : Prop := ∀ (fuel : Nat) (rest : List Char),
  JsonFields.fsize fs ≤ fuel → JsonFields.wfF fs = true → fs ≠ .nil →
  parseFields fuel (stringifyFields fs ++ '\x7d' :: rest) = some (fs, rest)

/-! ### Base64 roundtrip -/

theorem chunk3Induction {P : List Nat → Prop} (h0 : P []) (h1 : ∀ a, P [a])
    (h2 : ∀ a b, P [a, b]) (h3 : ∀ a b c l, P l → P (a :: b :: c :: l)) : ∀ l, P l
  | [] => h0
  | [a] => h1 a
  | [a, b] => h2 a b
  | a :: b :: c :: l => h3 a b c l (chunk3Induction h0 h1 h2 h3 l)

theorem b64Alphabet_length : b64Alphabet.length = 64 := by decide

theorem b64EncChar_default {n : Nat} (h : 64 ≤ n) : b64EncChar n = 'A' :=
  List.getD_eq_default _ _ (by rw [b64Alphabet_length]; omega)

theorem b64EncChar_facts (n : Nat) :
    b64EncChar n ≠ '=' ∧ isAsciiWs (b64EncChar n) = false ∧
    subDash (b64EncChar n) = b64EncChar n ∧ subUnder (b64EncChar n) = b64EncChar n ∧
    isJsWs (b64EncChar n) = false ∧
    subSlash (subPlus (b64EncChar n)) ≠ '.' ∧
    subUnder (subDash (subSlash (subPlus (b64EncChar n)))) = b64EncChar n := by
  by_cases h : n < 64
  · have key : ∀ m : Fin 64,
        b64EncChar m.val ≠ '=' ∧ isAsciiWs (b64EncChar m.val) = false ∧
        subDash (b64EncChar m.val) = b64EncChar m.val ∧
        subUnder (b64EncChar m.val) = b64EncChar m.val ∧
        isJsWs (b64EncChar m.val) = false ∧
        subSlash (subPlus (b64EncChar m.val)) ≠ '.' ∧
        subUnder (subDash (subSlash (subPlus (b64EncChar m.val)))) = b64EncChar m.val := by
      decide
    exact key ⟨n, h⟩
  · rw [b64EncChar_default (le_of_not_lt h)]
    decide

theorem b64DecChar_enc {n : Nat} (h : n < 64) : b64DecChar (b64EncChar n) = some n := by
  have key : ∀ m : Fin 64, b64DecChar (b64EncChar m.val) = some m.val := by decide
  exact key ⟨n, h⟩

theorem sextets_lt_64 : ∀ b : List Nat, (∀ x ∈ b, x < 256) → ∀ s ∈ sextets b, s < 64 := by
  refine chunk3Induction ?_ ?_ ?_ ?_
  · intro _ s hs
    simp [sextets] at hs
  · intro a h s hs
    have ha : a < 256 := h a (by simp)
    simp [sextets] at hs
    rcases hs with rfl | rfl <;> omega
  · intro a b h s hs
    have ha : a < 256 := h a (by simp)
    have hb : b < 256 := h b (by simp)
    simp [sextets] at hs
    rcases hs with rfl | rfl | rfl <;> omega
  · intro a b c l ih h s hs
    have ha : a < 256 := h a (by simp)
    have hb : b < 256 := h b (by simp)
    have hc : c < 256 := h c (by simp)
    simp only [sextets, List.mem_cons] at hs
    rcases hs with rfl | rfl | rfl | rfl | hs
    · omega
    · omega
    · omega
    · omega
    · exact ih (fun x hx => h x (by simp [hx])) s hs

theorem sextets_length_mod : ∀ b : List Nat,
    (b.length % 3 = 0 ∧ (sextets b).length % 4 = 0) ∨
    (b.length % 3 = 1 ∧ (sextets b).length % 4 = 2) ∨
    (b.length % 3 = 2 ∧ (sextets b).length % 4 = 3) := by
  refine chunk3Induction ?_ ?_ ?_ ?_
  · simp [sextets]
  · intro a; simp [sextets]
  · intro a b; simp [sextets]
  · intro a b c l ih
    simp only [sextets, List.length_cons]
    omega

theorem decodeQuads_sextets : ∀ b : List Nat, (∀ x ∈ b, x < 256) →
    decodeQuads (sextets b) = b := by
  refine chunk3Induction ?_ ?_ ?_ ?_
  · intro _; rfl
  · intro a h
    have ha : a < 256 := h a (by simp)
    simp only [sextets, decodeQuads]
    congr 1
    omega
  · intro a b h
    have ha : a < 256 := h a (by simp)
    have hb : b < 256 := h b (by simp)
    simp only [sextets, decodeQuads]
    congr 1
    · omega
    · congr 1
      omega
  · intro a b c l ih h
    have ha : a < 256 := h a (by simp)
    have hb : b < 256 := h b (by simp)
    have hc : c < 256 := h c (by simp)
    simp only [sextets, decodeQuads, List.cons.injEq]
    refine ⟨by omega, by omega, by omega, ih (fun x hx => h x (by simp [hx]))⟩

theorem optMapM_map_eq {α β : Type} (f : β → Option α) (g : α → β) :
    ∀ l : List α, (∀ x ∈ l, f (g x) = some x) → optMapM f (l.map g) = some l := by
  intro l
  induction l with
  | nil => intro _; rfl
  | cons a t ih =>
    intro h
    have ha := h a (by simp)
    have ht := ih (fun x hx => h x (by simp [hx]))
    simp only [List.map_cons, optMapM, ha, ht]

theorem stripTrailingEq_eq_self (l : List Char) (h : ∀ c ∈ l, c ≠ '=') :
    stripTrailingEq l = l := by
  unfold stripTrailingEq
  cases hg : l.getLast? with
  | none => simp
  | some c =>
    have hc : c ≠ '=' := h c (List.mem_of_mem_getLast? hg)
    simp [hg, hc]

theorem stripTrailingEq_append_pad (l : List Char) (h : ∀ c ∈ l, c ≠ '=') :
    ∀ p, (p = [] ∨ p = ['='] ∨ p = ['=', '=']) → stripTrailingEq (l ++ p) = l := by
  intro p hp
  rcases hp with rfl | rfl | rfl
  · rw [List.append_nil]
    exact stripTrailingEq_eq_self l h
  · unfold stripTrailingEq
    cases hg : l.getLast? with
    | none => simp [List.getLast?_concat, List.dropLast_concat, hg]
    | some c =>
      have hc : c ≠ '=' := h c (List.mem_of_mem_getLast? hg)
      simp [List.getLast?_concat, List.dropLast_concat, hg, hc]
  · unfold stripTrailingEq
    have e2 : l ++ ['=', '='] = (l ++ ['=']) ++ ['='] := by simp
    rw [e2]
    simp [List.getLast?_concat, List.dropLast_concat]

theorem atobFn_enc_nopad (b : List Nat) (hb : ∀ x ∈ b, x < 256) :
    atobFn ((sextets b).map b64EncChar) = some b := by
  have hs64 := sextets_lt_64 b hb
  have hnws : ((sextets b).map b64EncChar).filter (fun c => !isAsciiWs c) =
      (sextets b).map b64EncChar := by
    rw [List.filter_eq_self]
    intro a ha
    simp only [List.mem_map] at ha
    obtain ⟨s, _, rfl⟩ := ha
    simp [(b64EncChar_facts s).2.1]
  have hne : ∀ c ∈ (sextets b).map b64EncChar, c ≠ '=' := by
    intro c hc
    simp only [List.mem_map] at hc
    obtain ⟨s, _, rfl⟩ := hc
    exact (b64EncChar_facts s).1
  have hmod := sextets_length_mod b
  have hmapM : optMapM b64DecChar ((sextets b).map b64EncChar) = some (sextets b) :=
    optMapM_map_eq _ _ _ (fun s hs => b64DecChar_enc (hs64 s hs))
  unfold atobFn
  rw [hnws]
  have hstrip : (if ((sextets b).map b64EncChar).length % 4 = 0 then
      stripTrailingEq ((sextets b).map b64EncChar) else (sextets b).map b64EncChar) =
      (sextets b).map b64EncChar := by
    split
    · exact stripTrailingEq_eq_self _ hne
    · rfl
  rw [hstrip]
  unfold atobPipe
  have hne1 : ¬ ((sextets b).map b64EncChar).length % 4 = 1 := by
    rw [List.length_map]
    omega
  rw [if_neg hne1, hmapM]
  simp [decodeQuads_sextets b hb]

theorem b64Pad_cases (n : Nat) : b64Pad n = [] ∨ b64Pad n = ['='] ∨ b64Pad n = ['=', '='] := by
  unfold b64Pad
  split
  · right; right; rfl
  · right; left; rfl
  · left; rfl

theorem atobFn_btoa (b : List Nat) (hb : ∀ x ∈ b, x < 256) :
    atobFn (btoaFn b) = some b := by
  have hs64 := sextets_lt_64 b hb
  have hne : ∀ c ∈ (sextets b).map b64EncChar, c ≠ '=' := by
    intro c hc
    simp only [List.mem_map] at hc
    obtain ⟨s, _, rfl⟩ := hc
    exact (b64EncChar_facts s).1
  have hpadne : ∀ c ∈ b64Pad b.length, isAsciiWs c = false := by
    intro c hc
    rcases b64Pad_cases b.length with hp | hp | hp <;> rw [hp] at hc <;> simp at hc <;>
      simp [hc] <;> decide
  have hnws : (btoaFn b).filter (fun c => !isAsciiWs c) = btoaFn b := by
    rw [List.filter_eq_self]
    intro a ha
    unfold btoaFn at ha
    rw [List.mem_append] at ha
    rcases ha with ha | ha
    · simp only [List.mem_map] at ha
      obtain ⟨s, _, rfl⟩ := ha
      simp [(b64EncChar_facts s).2.1]
    · simp [hpadne a ha]
  have hmod := sextets_length_mod b
  have hpadlen : (btoaFn b).length % 4 = 0 := by
    unfold btoaFn b64Pad
    rw [List.length_append, List.length_map]
    rcases hmod with ⟨h3, h4⟩ | ⟨h3, h4⟩ | ⟨h3, h4⟩ <;> rw [h3] <;> simp <;> omega
  have hmapM : optMapM b64DecChar ((sextets b).map b64EncChar) = some (sextets b) :=
    optMapM_map_eq _ _ _ (fun s hs => b64DecChar_enc (hs64 s hs))
  unfold atobFn
  rw [hnws]
  rw [if_pos hpadlen]
  have hstrip : stripTrailingEq (btoaFn b) = (sextets b).map b64EncChar := by
    unfold btoaFn
    exact stripTrailingEq_append_pad _ hne _ (b64Pad_cases b.length)
  rw [hstrip]
  unfold atobPipe
  have hne1 : ¬ ((sextets b).map b64EncChar).length % 4 = 1 := by
    rw [List.length_map]
    omega
  rw [if_neg hne1, hmapM]
  simp [decodeQuads_sextets b hb]

theorem stringify_eq (b : List Nat) :
    Base64URL.stringify b =
      ((sextets b).map b64EncChar).map (fun c => subSlash (subPlus c)) := by
  unfold Base64URL.stringify
  have hfil : (btoaFn b).filter (fun c => c ≠ '=') = (sextets b).map b64EncChar := by
    unfold btoaFn
    rw [List.filter_append]
    have h1 : ((sextets b).map b64EncChar).filter (fun c => c ≠ '=') =
        (sextets b).map b64EncChar := by
      rw [List.filter_eq_self]
      intro a ha
      simp only [List.mem_map] at ha
      obtain ⟨s, _, rfl⟩ := ha
      simp [(b64EncChar_facts s).1]
    have h2 : (b64Pad b.length).filter (fun c => c ≠ '=') = [] := by
      rcases b64Pad_cases b.length with hp | hp | hp <;> rw [hp] <;> rfl
    rw [h1, h2, List.append_nil]
  rw [hfil, List.map_map]
  rfl

theorem parse_stringify (b : List Nat) (hb : ∀ x ∈ b, x < 256) :
    Base64URL.parse (Base64URL.stringify b) = some b := by
  rw [stringify_eq]
  unfold Base64URL.parse
  rw [List.map_map, List.map_map, List.map_map]
  simp only [Function.comp_def]
  rw [List.map_congr_left (fun s _ => (b64EncChar_facts s).2.2.2.2.2.2)]
  have hfil : ((sextets b).map b64EncChar).filter (fun c => !isJsWs c) =
      (sextets b).map b64EncChar := by
    rw [List.filter_eq_self]
    intro a ha
    simp only [List.mem_map] at ha
    obtain ⟨s, _, rfl⟩ := ha
    simp [(b64EncChar_facts s).2.2.2.2.1]
  rw [hfil]
  exact atobFn_enc_nopad b hb

theorem parse_btoa (b : List Nat) (hb : ∀ x ∈ b, x < 256) :
    Base64URL.parse (btoaFn b) = some b := by
  unfold Base64URL.parse
  have hsubs : ((btoaFn b).map subDash).map subUnder = btoaFn b := by
    rw [List.map_map]
    have := List.map_congr_left (l := btoaFn b) (f := subUnder ∘ subDash) (g := id) ?_
    · rw [this, List.map_id]
    · intro a ha
      unfold btoaFn at ha
      rw [List.mem_append] at ha
      rcases ha with ha | ha
      · simp only [List.mem_map] at ha
        obtain ⟨s, _, rfl⟩ := ha
        simp only [Function.comp_apply, id_eq, (b64EncChar_facts s).2.2.1,
          (b64EncChar_facts s).2.2.2.1]
      · rcases b64Pad_cases b.length with hp | hp | hp <;> rw [hp] at ha <;> simp at ha <;>
          simp [ha] <;> rfl
  rw [hsubs]
  have hfil : (btoaFn b).filter (fun c => !isJsWs c) = btoaFn b := by
    rw [List.filter_eq_self]
    intro a ha
    unfold btoaFn at ha
    rw [List.mem_append] at ha
    rcases ha with ha | ha
    · simp only [List.mem_map] at ha
      obtain ⟨s, _, rfl⟩ := ha
      simp [(b64EncChar_facts s).2.2.2.2.1]
    · rcases b64Pad_cases b.length with hp | hp | hp <;> rw [hp] at ha <;> simp at ha <;>
        simp [ha] <;> rfl
  rw [hfil]
  exact atobFn_btoa b hb

theorem stringify_no_dot (b : List Nat) : '.' ∉ Base64URL.stringify b := by
  rw [stringify_eq]
  intro hmem
  simp only [List.mem_map] at hmem
  obtain ⟨c, ⟨m, _, rfl⟩, h2⟩ := hmem
  exact (b64EncChar_facts m).2.2.2.2.2.1 h2

theorem stringify_length (b : List Nat) :
    (Base64URL.stringify b).length = (sextets b).length := by
  rw [stringify_eq]
  simp


/-! ### UTF-8 roundtrip -/

theorem char_toNat_valid (c : Char) :
    c.toNat < 0xd800 ∨ (0xdfff < c.toNat ∧ c.toNat < 0x110000) := by
  have h := c.valid
  simp only [UInt32.isValidChar, Nat.isValidChar, Char.toNat] at h
  exact h

theorem utf8Step1 (fuel n : Nat) (h1 : n < 0x80) (tail : List Nat) :
    utf8DecodeAux (fuel + 1) (n :: tail) =
      (utf8DecodeAux fuel tail).map (fun cs => Char.ofNat n :: cs) := by
  simp only [utf8DecodeAux]
  rw [if_pos h1]

theorem utf8Step2 (fuel n : Nat) (h1 : 0x80 ≤ n) (h2 : n < 0x800) (tail : List Nat) :
    utf8DecodeAux (fuel + 1) ((0xc0 + n / 64) :: (0x80 + n % 64) :: tail) =
      (utf8DecodeAux fuel tail).map (fun cs => Char.ofNat n :: cs) := by
  simp only [utf8DecodeAux]
  rw [if_neg (by omega), if_neg (by omega), if_pos (by omega)]
  rw [if_pos (by omega : (0x80 : Nat) ≤ 0x80 + n % 64 ∧ 0x80 + n % 64 < 0xc0)]
  have harith : (0xc0 + n / 64 - 0xc0) * 64 + (0x80 + n % 64 - 0x80) = n := by omega
  rw [harith]

theorem utf8Step3 (fuel n : Nat) (h1 : 0x800 ≤ n) (h2 : n < 0x10000)
    (h3 : n < 0xd800 ∨ 0xdfff < n) (tail : List Nat) :
    utf8DecodeAux (fuel + 1) ((0xe0 + n / 4096) :: (0x80 + n / 64 % 64) :: (0x80 + n % 64) :: tail) =
      (utf8DecodeAux fuel tail).map (fun cs => Char.ofNat n :: cs) := by
  simp only [utf8DecodeAux]
  rw [if_neg (by omega), if_neg (by omega), if_neg (by omega), if_pos (by omega)]
  rw [if_pos (by omega :
    (0x80 : Nat) ≤ 0x80 + n / 64 % 64 ∧ 0x80 + n / 64 % 64 < 0xc0 ∧
      (0x80 : Nat) ≤ 0x80 + n % 64 ∧ 0x80 + n % 64 < 0xc0)]
  have harith : (0xe0 + n / 4096 - 0xe0) * 4096 + (0x80 + n / 64 % 64 - 0x80) * 64 +
      (0x80 + n % 64 - 0x80) = n := by omega
  rw [harith]
  rw [if_neg (by omega)]

theorem utf8Step4 (fuel n : Nat) (h1 : 0x10000 ≤ n) (h2 : n < 0x110000) (tail : List Nat) :
    utf8DecodeAux (fuel + 1)
        ((0xf0 + n / 262144) :: (0x80 + n / 4096 % 64) :: (0x80 + n / 64 % 64) ::
          (0x80 + n % 64) :: tail) =
      (utf8DecodeAux fuel tail).map (fun cs => Char.ofNat n :: cs) := by
  simp only [utf8DecodeAux]
  rw [if_neg (by omega), if_neg (by omega), if_neg (by omega), if_neg (by omega),
    if_pos (by omega)]
  rw [if_pos (by omega :
    (0x80 : Nat) ≤ 0x80 + n / 4096 % 64 ∧ 0x80 + n / 4096 % 64 < 0xc0 ∧
      (0x80 : Nat) ≤ 0x80 + n / 64 % 64 ∧ 0x80 + n / 64 % 64 < 0xc0 ∧
      (0x80 : Nat) ≤ 0x80 + n % 64 ∧ 0x80 + n % 64 < 0xc0)]
  have harith : (0xf0 + n / 262144 - 0xf0) * 262144 + (0x80 + n / 4096 % 64 - 0x80) * 4096 +
      (0x80 + n / 64 % 64 - 0x80) * 64 + (0x80 + n % 64 - 0x80) = n := by omega
  rw [harith]
  rw [if_neg (by omega)]

theorem utf8DecodeAux_encode (s : List Char) :
    ∀ (k : Nat) (rest : List Nat),
    utf8DecodeAux (s.length + k) (utf8Encode s ++ rest) =
      (utf8DecodeAux k rest).map (fun cs => s ++ cs) := by
  induction s with
  | nil =>
    intro k rest
    simp only [utf8Encode, List.map_nil, List.flatten_nil, List.nil_append, List.length_nil,
      Nat.zero_add]
    cases utf8DecodeAux k rest <;> simp
  | cons c t ih =>
    intro k rest
    have hv := char_toNat_valid c
    have hlen : (c :: t).length + k = (t.length + k) + 1 := by
      simp only [List.length_cons]
      omega
    rw [hlen]
    have henc : utf8Encode (c :: t) ++ rest = utf8EncodeChar c ++ (utf8Encode t ++ rest) := by
      simp [utf8Encode]
    rw [henc]
    by_cases h1 : c.toNat < 0x80
    · have he : utf8EncodeChar c = [c.toNat] := by
        unfold utf8EncodeChar
        rw [if_pos h1]
      rw [he, List.cons_append, List.nil_append, utf8Step1 _ _ h1, ih k rest,
        Char.ofNat_toNat]
      cases utf8DecodeAux k rest <;> simp
    · by_cases h2 : c.toNat < 0x800
      · have he : utf8EncodeChar c = [0xc0 + c.toNat / 64, 0x80 + c.toNat % 64] := by
          unfold utf8EncodeChar
          rw [if_neg h1, if_pos h2]
        rw [he, List.cons_append, List.cons_append, List.nil_append,
          utf8Step2 _ _ (by omega) h2, ih k rest, Char.ofNat_toNat]
        cases utf8DecodeAux k rest <;> simp
      · by_cases h3 : c.toNat < 0x10000
        · have he : utf8EncodeChar c =
              [0xe0 + c.toNat / 4096, 0x80 + c.toNat / 64 % 64, 0x80 + c.toNat % 64] := by
            unfold utf8EncodeChar
            rw [if_neg h1, if_neg h2, if_pos h3]
          rw [he, List.cons_append, List.cons_append, List.cons_append, List.nil_append,
            utf8Step3 _ _ (by omega) h3 (by omega), ih k rest, Char.ofNat_toNat]
          cases utf8DecodeAux k rest <;> simp
        · have he : utf8EncodeChar c =
              [0xf0 + c.toNat / 262144, 0x80 + c.toNat / 4096 % 64, 0x80 + c.toNat / 64 % 64,
                0x80 + c.toNat % 64] := by
            unfold utf8EncodeChar
            rw [if_neg h1, if_neg h2, if_neg h3]
          rw [he, List.cons_append, List.cons_append, List.cons_append, List.cons_append,
            List.nil_append, utf8Step4 _ _ (by omega) (by omega), ih k rest, Char.ofNat_toNat]
          cases utf8DecodeAux k rest <;> simp

theorem utf8EncodeChar_length_pos (c : Char) : 1 ≤ (utf8EncodeChar c).length := by
  simp only [utf8EncodeChar]
  split_ifs <;> simp

theorem utf8Encode_length_ge (s : List Char) : s.length ≤ (utf8Encode s).length := by
  induction s with
  | nil => simp [utf8Encode]
  | cons c t ih =>
    have hc := utf8EncodeChar_length_pos c
    simp only [utf8Encode, List.map_cons, List.flatten_cons, List.length_append,
      List.length_cons] at ih ⊢
    omega

theorem utf8Decode_encode (s : List Char) : utf8Decode (utf8Encode s) = some s := by
  have hlen := utf8Encode_length_ge s
  have happ := utf8DecodeAux_encode s ((utf8Encode s).length + 1 - s.length) []
  rw [List.append_nil] at happ
  have hidx : s.length + ((utf8Encode s).length + 1 - s.length) = (utf8Encode s).length + 1 := by
    omega
  rw [hidx] at happ
  unfold utf8Decode
  rw [happ]
  cases hk : (utf8Encode s).length + 1 - s.length with
  | zero => omega
  | succ k' => simp [utf8DecodeAux]

theorem utf8EncodeChar_lt_256 (c : Char) : ∀ x ∈ utf8EncodeChar c, x < 256 := by
  have hv := char_toNat_valid c
  have hb : c.toNat < 0x110000 := by omega
  intro x hx
  simp only [utf8EncodeChar] at hx
  split_ifs at hx <;> simp at hx <;> omega

theorem utf8Encode_lt_256 (s : List Char) : ∀ x ∈ utf8Encode s, x < 256 := by
  intro x hx
  simp only [utf8Encode, List.mem_flatten, List.mem_map] at hx
  obtain ⟨l, ⟨c, _, rfl⟩, hxl⟩ := hx
  exact utf8EncodeChar_lt_256 c x hxl

/-! ### Decimal digits -/

theorem natDigitsAux_eq : ∀ fuel n : Nat, n < fuel →
    natDigitsAux fuel n = (Nat.digits 10 n).reverse.map decDigitChar := by
  intro fuel
  induction fuel with
  | zero => intro n h; omega
  | succ f ih =>
    intro n h
    by_cases h0 : n = 0
    · subst h0
      simp [natDigitsAux]
    · rw [natDigitsAux, if_neg h0, ih (n / 10) (by omega),
        Nat.digits_def' (by norm_num : (1 : Nat) < 10) (Nat.pos_of_ne_zero h0)]
      simp

theorem decDigitChar_facts (d : Nat) (hd : d < 10) :
    isDecDigit (decDigitChar d) = true ∧ (decDigitChar d).toNat - 48 = d ∧
    (d ≠ 0 → decDigitChar d ≠ '0') ∧ isJsonWs (decDigitChar d) = false ∧
    decDigitChar d ≠ '-' ∧ decDigitChar d ≠ 'n' ∧ decDigitChar d ≠ 't' ∧
    decDigitChar d ≠ 'f' ∧ decDigitChar d ≠ '"' ∧ decDigitChar d ≠ '[' ∧
    decDigitChar d ≠ '\x7b' := by
  have key : ∀ m : Fin 10,
      isDecDigit (decDigitChar m.val) = true ∧ (decDigitChar m.val).toNat - 48 = m.val ∧
      (m.val ≠ 0 → decDigitChar m.val ≠ '0') ∧ isJsonWs (decDigitChar m.val) = false ∧
      decDigitChar m.val ≠ '-' ∧ decDigitChar m.val ≠ 'n' ∧ decDigitChar m.val ≠ 't' ∧
      decDigitChar m.val ≠ 'f' ∧ decDigitChar m.val ≠ '"' ∧ decDigitChar m.val ≠ '[' ∧
      decDigitChar m.val ≠ '\x7b' := by decide
  exact key ⟨d, hd⟩

theorem natToChars_all_digits (n : Nat) : ∀ c ∈ natToChars n, isDecDigit c = true := by
  intro c hc
  unfold natToChars at hc
  split at hc
  · simp at hc
    simp [hc, isDecDigit]
  · rw [natDigitsAux_eq (n + 1) n (by omega)] at hc
    simp only [List.mem_map, List.mem_reverse] at hc
    obtain ⟨d, hd, rfl⟩ := hc
    exact (decDigitChar_facts d (Nat.digits_lt_base (by norm_num) hd)).1

theorem natToChars_ne_nil (n : Nat) : natToChars n ≠ [] := by
  unfold natToChars
  split
  · simp
  · rw [natDigitsAux_eq (n + 1) n (by omega)]
    simp
    intro hcon
    rw [Nat.digits_eq_nil_iff_eq_zero] at hcon
    omega

theorem takeWhile_append_of_all {α : Type} {p : α → Bool} :
    ∀ xs ys : List α, (∀ x ∈ xs, p x = true) →
    (xs ++ ys).takeWhile p = xs ++ ys.takeWhile p := by
  intro xs
  induction xs with
  | nil => intro ys _; simp
  | cons a t ih =>
    intro ys h
    simp only [List.cons_append, List.takeWhile_cons, h a (by simp)]
    rw [ih ys (fun x hx => h x (by simp [hx]))]
    simp

theorem dropWhile_append_of_all {α : Type} {p : α → Bool} :
    ∀ xs ys : List α, (∀ x ∈ xs, p x = true) →
    (xs ++ ys).dropWhile p = ys.dropWhile p := by
  intro xs
  induction xs with
  | nil => intro ys _; simp
  | cons a t ih =>
    intro ys h
    simp only [List.cons_append, List.dropWhile_cons, h a (by simp)]
    exact ih ys (fun x hx => h x (by simp [hx]))

theorem restStop_not_digit (rest : List Char) (h : restStop rest = true) :
    rest.takeWhile isDecDigit = [] ∧ rest.dropWhile isDecDigit = rest := by
  cases rest with
  | nil => simp
  | cons c t =>
    simp only [restStop] at h
    rcases (by simpa using h : (c = ',' ∨ c = ']') ∨ c = '\x7d') with (rfl | rfl) | rfl <;>
      simp [List.takeWhile_cons, List.dropWhile_cons, isDecDigit]

theorem foldl_reverse_ofDigits : ∀ (l : List Nat) (acc : Nat),
    List.foldl (fun a d => a * 10 + d) acc l.reverse =
      acc * 10 ^ l.length + Nat.ofDigits 10 l := by
  intro l
  induction l with
  | nil => intro acc; simp [Nat.ofDigits]
  | cons d t ih =>
    intro acc
    simp only [List.reverse_cons, List.foldl_append, ih, List.length_cons, Nat.ofDigits_cons,
      List.foldl_cons, List.foldl_nil]
    ring

theorem foldl_congr_mem {α β : Type} (l : List α) (f g : β → α → β)
    (h : ∀ b : β, ∀ a ∈ l, f b a = g b a) : ∀ init, l.foldl f init = l.foldl g init := by
  induction l with
  | nil => intro _; rfl
  | cons a t ih =>
    intro init
    simp only [List.foldl_cons, h init a (by simp)]
    exact ih (fun b x hx => h b x (by simp [hx])) _

theorem foldl_natToChars (n : Nat) :
    (natToChars n).foldl (fun a c => a * 10 + (c.toNat - 48)) 0 = n := by
  unfold natToChars
  split
  · subst ‹n = 0›
    rfl
  · rw [natDigitsAux_eq (n + 1) n (by omega), List.foldl_map]
    rw [foldl_congr_mem _ _ (fun a d => a * 10 + d) ?_ 0]
    · rw [foldl_reverse_ofDigits]
      simp [Nat.ofDigits_digits]
    · intro b a ha
      rw [List.mem_reverse] at ha
      have := (decDigitChar_facts a (Nat.digits_lt_base (by norm_num) ha)).2.1
      show b * 10 + ((decDigitChar a).toNat - 48) = b * 10 + a
      omega

theorem natToChars_head_ne_zero (n : Nat) (h0 : n ≠ 0) (d : Char) (tail : List Char)
    (hnc : natToChars n = d :: tail) : d ≠ '0' := by
  unfold natToChars at hnc
  rw [if_neg h0, natDigitsAux_eq (n + 1) n (by omega)] at hnc
  have hmap := hnc
  rw [List.map_eq_cons_iff] at hmap
  obtain ⟨d0, l0, hrev, hd, _⟩ := hmap
  have hlast : (Nat.digits 10 n).getLast? = some d0 := by
    rw [← List.head?_reverse, hrev]
    rfl
  have hne : Nat.digits 10 n ≠ [] := by
    simp [Nat.digits_eq_nil_iff_eq_zero, h0]
  have hd0 : d0 = (Nat.digits 10 n).getLast hne := by
    have := List.getLast?_eq_getLast (Nat.digits 10 n) hne
    rw [this] at hlast
    exact (Option.some.injEq _ _ ▸ hlast).symm
  have hd0ne : d0 ≠ 0 := by
    rw [hd0]
    exact Nat.getLast_digit_ne_zero 10 h0
  have hd0lt : d0 < 10 := by
    apply Nat.digits_lt_base (by norm_num)
    exact hd0 ▸ List.getLast_mem hne
  rw [← hd]
  exact (decDigitChar_facts d0 hd0lt).2.2.1 hd0ne

theorem parseNat_natToChars (n : Nat) (rest : List Char) (h : restStop rest = true) :
    parseNat (natToChars n ++ rest) = some (n, rest) := by
  obtain ⟨hds, hrest⟩ := restStop_not_digit rest h
  unfold parseNat
  rw [takeWhile_append_of_all _ _ (natToChars_all_digits n), hds, List.append_nil,
    dropWhile_append_of_all _ _ (natToChars_all_digits n), hrest]
  cases hnc : natToChars n with
  | nil => exact absurd hnc (natToChars_ne_nil n)
  | cons d tail =>
    by_cases h0 : n = 0
    · subst h0
      have h01 : natToChars 0 = ['0'] := rfl
      rw [h01] at hnc
      obtain ⟨rfl, rfl⟩ : d = '0' ∧ tail = [] := by
        refine ⟨?_, ?_⟩
        · exact ((List.cons.injEq _ _ _ _ ▸ hnc).1).symm
        · exact ((List.cons.injEq _ _ _ _ ▸ hnc).2).symm
      rfl
    · have hd0 : d ≠ '0' := natToChars_head_ne_zero n h0 d tail hnc
      show (if d = '0' ∧ tail ≠ [] then none
        else some ((d :: tail).foldl (fun a c => a * 10 + (c.toNat - 48)) 0,
          rest)) = some (n, rest)
      rw [if_neg (by simp [hd0])]
      rw [← hnc, foldl_natToChars]

theorem parseNumber_intToChars (i : Int) (rest : List Char) (h : restStop rest = true) :
    parseNumber (intToChars i ++ rest) = some (.jnum i, rest) := by
  by_cases hneg : i < 0
  · have he : intToChars i = '-' :: natToChars i.natAbs := by
      unfold intToChars
      rw [if_pos hneg]
    rw [he, List.cons_append]
    unfold parseNumber
    have hcore : parseIntCore ('-' :: (natToChars i.natAbs ++ rest)) =
        (parseNat (natToChars i.natAbs ++ rest)).map (fun p => (-(p.1 : Int), p.2)) := rfl
    rw [hcore, parseNat_natToChars _ _ h]
    have hival : -(i.natAbs : Int) = i := by omega
    simp only [Option.map, hival]
    cases rest with
    | nil => rfl
    | cons c t =>
      simp only [restStop] at h
      rcases (by simpa using h : (c = ',' ∨ c = ']') ∨ c = '\x7d') with (rfl | rfl) | rfl <;>
        rfl
  · have he : intToChars i = natToChars i.natAbs := by
      unfold intToChars
      rw [if_neg hneg]
    rw [he]
    unfold parseNumber
    cases hnc : natToChars i.natAbs with
    | nil => exact absurd hnc (natToChars_ne_nil _)
    | cons d tail =>
      have hdd : isDecDigit d = true := by
        apply natToChars_all_digits i.natAbs
        rw [hnc]
        simp
      have hdne : d ≠ '-' := by
        intro hcon
        rw [hcon] at hdd
        simp [isDecDigit] at hdd
      rw [List.cons_append]
      have hcore : parseIntCore (d :: (tail ++ rest)) =
          (parseNat (d :: (tail ++ rest))).map (fun p => ((p.1 : Int), p.2)) := by
        unfold parseIntCore
        split
        · rename_i heq
          exact absurd (List.cons.injEq _ _ _ _ ▸ heq).1 hdne
        · rfl
      rw [hcore, ← List.cons_append, ← hnc, parseNat_natToChars _ _ h]
      have hival : ((i.natAbs : Nat) : Int) = i := by omega
      simp only [Option.map, hival]
      cases rest with
      | nil => rfl
      | cons c t =>
        simp only [restStop] at h
        rcases (by simpa using h : (c = ',' ∨ c = ']') ∨ c = '\x7d') with (rfl | rfl) | rfl <;>
          rfl

/-! ### JSON string literal roundtrip -/

theorem hexVal_hexDigitChar (x : Nat) (h : x < 16) : hexVal (hexDigitChar x) = some x := by
  have key : ∀ m : Fin 16, hexVal (hexDigitChar m.val) = some m.val := by decide
  exact key ⟨x, h⟩

theorem strStepQuote (fuel : Nat) (tail : List Char) :
    parseStrAux (fuel + 1) ('"' :: tail) = some ([], tail) := rfl

theorem strStepEscQuote (fuel : Nat) (tail : List Char) :
    parseStrAux (fuel + 1) ('\\' :: '"' :: tail) =
      (parseStrAux fuel tail).map (fun p => ('"' :: p.1, p.2)) := rfl

theorem strStepEscBack (fuel : Nat) (tail : List Char) :
    parseStrAux (fuel + 1) ('\\' :: '\\' :: tail) =
      (parseStrAux fuel tail).map (fun p => ('\\' :: p.1, p.2)) := rfl

theorem strStepEscB (fuel : Nat) (tail : List Char) :
    parseStrAux (fuel + 1) ('\\' :: 'b' :: tail) =
      (parseStrAux fuel tail).map (fun p => ('\x08' :: p.1, p.2)) := rfl

theorem strStepEscF (fuel : Nat) (tail : List Char) :
    parseStrAux (fuel + 1) ('\\' :: 'f' :: tail) =
      (parseStrAux fuel tail).map (fun p => ('\x0c' :: p.1, p.2)) := rfl

theorem strStepEscN (fuel : Nat) (tail : List Char) :
    parseStrAux (fuel + 1) ('\\' :: 'n' :: tail) =
      (parseStrAux fuel tail).map (fun p => ('\n' :: p.1, p.2)) := rfl

theorem strStepEscR (fuel : Nat) (tail : List Char) :
    parseStrAux (fuel + 1) ('\\' :: 'r' :: tail) =
      (parseStrAux fuel tail).map (fun p => ('\x0d' :: p.1, p.2)) := rfl

theorem strStepEscT (fuel : Nat) (tail : List Char) :
    parseStrAux (fuel + 1) ('\\' :: 't' :: tail) =
      (parseStrAux fuel tail).map (fun p => ('\t' :: p.1, p.2)) := rfl

theorem strStepPlain (fuel : Nat) (c : Char) (h1 : ¬c = '"') (h2 : ¬c = '\\')
    (h3 : ¬c.toNat < 0x20) (tail : List Char) :
    parseStrAux (fuel + 1) (c :: tail) =
      (parseStrAux fuel tail).map (fun p => (c :: p.1, p.2)) := by
  simp only [parseStrAux]
  rw [if_neg h1, if_neg h2, if_neg h3]

theorem strStepU (fuel x : Nat) (hx : x < 0x20) (tail : List Char) :
    parseStrAux (fuel + 1)
        ('\\' :: 'u' :: '0' :: '0' :: hexDigitChar (x / 16) :: hexDigitChar (x % 16) :: tail) =
      (parseStrAux fuel tail).map (fun p => (Char.ofNat x :: p.1, p.2)) := by
  have h3 : hexVal (hexDigitChar (x / 16)) = some (x / 16) := hexVal_hexDigitChar _ (by omega)
  have h4 : hexVal (hexDigitChar (x % 16)) = some (x % 16) := hexVal_hexDigitChar _ (by omega)
  have h0 : hexVal '0' = some 0 := rfl
  have harith : x / 16 * 16 + x % 16 = x := by omega
  simp only [parseStrAux, h0, h3, h4]
  simp [harith]
  intro h1 _
  exact absurd h1 (by omega)

theorem parseStrAux_escaped (s : List Char) : ∀ (k : Nat) (rest : List Char),
    parseStrAux (s.length + k + 1) ((s.map escChar).flatten ++ '"' :: rest) = some (s, rest) := by
  induction s with
  | nil =>
    intro k rest
    simp only [List.length_nil, List.map_nil, List.flatten_nil, List.nil_append, Nat.zero_add]
    exact strStepQuote k rest
  | cons c t ih =>
    intro k rest
    have hidx : (c :: t).length + k + 1 = (t.length + k + 1) + 1 := by
      simp only [List.length_cons]
      omega
    have hflat : ((c :: t).map escChar).flatten ++ '"' :: rest =
        escChar c ++ ((t.map escChar).flatten ++ '"' :: rest) := by simp
    rw [hidx, hflat]
    by_cases hq : c = '"'
    · subst hq
      rw [show escChar '"' = ['\\', '"'] from rfl]
      simp only [List.cons_append, List.nil_append]
      rw [strStepEscQuote, ih k rest]
      rfl
    · by_cases hbs : c = '\\'
      · subst hbs
        rw [show escChar '\\' = ['\\', '\\'] from rfl]
        simp only [List.cons_append, List.nil_append]
        rw [strStepEscBack, ih k rest]
        rfl
      · by_cases hb : c = '\x08'
        · subst hb
          rw [show escChar '\x08' = ['\\', 'b'] from rfl]
          simp only [List.cons_append, List.nil_append]
          rw [strStepEscB, ih k rest]
          rfl
        · by_cases hf : c = '\x0c'
          · subst hf
            rw [show escChar '\x0c' = ['\\', 'f'] from rfl]
            simp only [List.cons_append, List.nil_append]
            rw [strStepEscF, ih k rest]
            rfl
          · by_cases hn : c = '\n'
            · subst hn
              rw [show escChar '\n' = ['\\', 'n'] from rfl]
              simp only [List.cons_append, List.nil_append]
              rw [strStepEscN, ih k rest]
              rfl
            · by_cases hr : c = '\x0d'
              · subst hr
                rw [show escChar '\x0d' = ['\\', 'r'] from rfl]
                simp only [List.cons_append, List.nil_append]
                rw [strStepEscR, ih k rest]
                rfl
              · by_cases ht : c = '\t'
                · subst ht
                  rw [show escChar '\t' = ['\\', 't'] from rfl]
                  simp only [List.cons_append, List.nil_append]
                  rw [strStepEscT, ih k rest]
                  rfl
                · by_cases hctl : c.toNat < 0x20
                  · have he : escChar c = ['\\', 'u', '0', '0',
                        hexDigitChar (c.toNat / 16), hexDigitChar (c.toNat % 16)] := by
                      unfold escChar
                      rw [if_neg hq, if_neg hbs, if_neg hb, if_neg hf, if_neg hn, if_neg hr,
                        if_neg ht, if_pos hctl]
                    rw [he]
                    simp only [List.cons_append, List.nil_append]
                    rw [strStepU _ _ hctl, ih k rest, Char.ofNat_toNat]
                    rfl
                  · have he : escChar c = [c] := by
                      unfold escChar
                      rw [if_neg hq, if_neg hbs, if_neg hb, if_neg hf, if_neg hn, if_neg hr,
                        if_neg ht, if_neg hctl]
                    rw [he]
                    simp only [List.cons_append, List.nil_append]
                    rw [strStepPlain _ _ hq hbs hctl, ih k rest]
                    rfl

theorem escChar_length_pos (c : Char) : 1 ≤ (escChar c).length := by
  unfold escChar
  split_ifs <;> simp

theorem escFlatten_length_ge (s : List Char) : s.length ≤ ((s.map escChar).flatten).length := by
  induction s with
  | nil => simp
  | cons c t ih =>
    have hc := escChar_length_pos c
    simp only [List.map_cons, List.flatten_cons, List.length_append, List.length_cons]
    omega

theorem parseStr_escaped (s : List Char) (rest : List Char) :
    parseStr ((s.map escChar).flatten ++ '"' :: rest) = some (s, rest) := by
  unfold parseStr
  have hlen := escFlatten_length_ge s
  have hidx : ((s.map escChar).flatten ++ '"' :: rest).length + 1 =
      s.length + (((s.map escChar).flatten ++ '"' :: rest).length - s.length) + 1 := by
    simp only [List.length_append, List.length_cons]
    omega
  rw [hidx]
  exact parseStrAux_escaped s _ rest

/-! ### Object member bookkeeping -/

theorem jsonFieldsInduction {P : JsonFields → Prop} (hnil : P .nil)
    (hcons : ∀ k v fs, P fs → P (.cons k v fs)) : ∀ fs, P fs
  | .nil => hnil
  | .cons k v fs => hcons k v fs (jsonFieldsInduction hnil hcons fs)

theorem jsonListInduction {P : JsonList → Prop} (hnil : P .nil)
    (hcons : ∀ x xs, P xs → P (.cons x xs)) : ∀ xs, P xs
  | .nil => hnil
  | .cons x xs => hcons x xs (jsonListInduction hnil hcons xs)

theorem fieldsAppend_nil (fs : JsonFields) : fieldsAppend fs .nil = fs := by
  induction fs using jsonFieldsInduction with
  | hnil => rfl
  | hcons k v fs ih => simp only [fieldsAppend, ih]

theorem fieldsAppend_assoc (a b c : JsonFields) :
    fieldsAppend (fieldsAppend a b) c = fieldsAppend a (fieldsAppend b c) := by
  induction a using jsonFieldsInduction with
  | hnil => rfl
  | hcons k v fs ih => simp only [fieldsAppend, ih]

theorem keyAbsent_append (k : List Char) (a b : JsonFields) :
    keyAbsent k (fieldsAppend a b) = (keyAbsent k a && keyAbsent k b) := by
  induction a using jsonFieldsInduction with
  | hnil => simp [fieldsAppend, keyAbsent]
  | hcons k0 v0 fs ih =>
    simp only [fieldsAppend, keyAbsent, ih, Bool.and_assoc]

theorem objInsert_absent (fs : JsonFields) (k : List Char) (v : Json)
    (h : keyAbsent k fs = true) : objInsert fs k v = fieldsAppend fs (.cons k v .nil) := by
  induction fs using jsonFieldsInduction with
  | hnil => rfl
  | hcons k0 v0 fs ih =>
    simp only [keyAbsent, Bool.and_eq_true, decide_eq_true_eq] at h
    simp only [objInsert, if_neg (fun hc => h.1 hc), fieldsAppend]
    rw [ih h.2]

theorem keysAbsentIn_append_single (fs : JsonFields) (acc : JsonFields) (k : List Char)
    (v : Json) (h1 : keysAbsentIn fs acc = true) (h2 : keyAbsent k fs = true) :
    keysAbsentIn fs (fieldsAppend acc (.cons k v .nil)) = true := by
  induction fs using jsonFieldsInduction with
  | hnil => rfl
  | hcons k0 v0 fs0 ih =>
    simp only [keysAbsentIn, Bool.and_eq_true] at h1
    simp only [keyAbsent, Bool.and_eq_true, decide_eq_true_eq] at h2
    simp only [keysAbsentIn, Bool.and_eq_true]
    refine ⟨?_, ih h1.2 h2.2⟩
    rw [keyAbsent_append]
    simp only [h1.1, keyAbsent, Bool.and_eq_true, decide_eq_true_eq]
    exact ⟨trivial, fun hc => h2.1 hc.symm, trivial⟩

theorem keysAbsentIn_nil_acc (fs : JsonFields) : keysAbsentIn fs .nil = true := by
  induction fs using jsonFieldsInduction with
  | hnil => rfl
  | hcons k v fs ih => simp only [keysAbsentIn, keyAbsent, ih, Bool.and_true]

theorem buildObjAux_append : ∀ fs acc : JsonFields, keysAbsentIn fs acc = true →
    JsonFields.wfF fs = true → buildObjAux acc fs = fieldsAppend acc fs := by
  intro fs
  induction fs using jsonFieldsInduction with
  | hnil =>
    intro acc _ _
    rw [fieldsAppend_nil]
    rfl
  | hcons k v fs0 ih =>
    intro acc h1 h2
    simp only [keysAbsentIn, Bool.and_eq_true] at h1
    simp only [JsonFields.wfF, Bool.and_eq_true] at h2
    simp only [buildObjAux]
    rw [objInsert_absent acc k v h1.1,
      ih _ (keysAbsentIn_append_single fs0 acc k v h1.2 h2.1.1) h2.2,
      fieldsAppend_assoc]
    rfl

theorem buildObj_self (fs : JsonFields) (h : JsonFields.wfF fs = true) : buildObj fs = fs := by
  unfold buildObj
  rw [buildObjAux_append fs .nil (keysAbsentIn_nil_acc fs) h]
  rfl

/-! ### First characters of serialized values -/

theorem digit_head_facts (c : Char) (h : isDecDigit c = true) :
    isJsonWs c = false ∧ c ≠ ']' ∧ c ≠ '\x7d' ∧ c ≠ 'n' ∧ c ≠ 't' ∧ c ≠ 'f' ∧
    c ≠ '"' ∧ c ≠ '[' ∧ c ≠ '\x7b' := by
  have hsp : c ≠ ' ' := fun heq => by rw [heq] at h; exact absurd h (by decide)
  have hta : c ≠ '\t' := fun heq => by rw [heq] at h; exact absurd h (by decide)
  have hnl : c ≠ '\n' := fun heq => by rw [heq] at h; exact absurd h (by decide)
  have hcr : c ≠ '\x0d' := fun heq => by rw [heq] at h; exact absurd h (by decide)
  refine ⟨by simp [isJsonWs, hsp, hta, hnl, hcr], ?_, ?_, ?_, ?_, ?_, ?_, ?_, ?_⟩ <;>
    exact fun heq => by rw [heq] at h; exact absurd h (by decide)

theorem intToChars_head (i : Int) :
    ∃ d tl, intToChars i = d :: tl ∧ (d = '-' ∨ isDecDigit d = true) := by
  unfold intToChars
  split
  · exact ⟨'-', natToChars i.natAbs, rfl, Or.inl rfl⟩
  · cases hnc : natToChars i.natAbs with
    | nil => exact absurd hnc (natToChars_ne_nil _)
    | cons d tl =>
      refine ⟨d, tl, rfl, Or.inr ?_⟩
      apply natToChars_all_digits i.natAbs
      rw [hnc]
      simp

theorem stringifyHead (v : Json) : ∃ c tl, jsonStringify v = c :: tl ∧
    isJsonWs c = false ∧ c ≠ ']' ∧ c ≠ '\x7d' := by
  cases v with
  | jnull => exact ⟨'n', _, rfl, by decide, by decide, by decide⟩
  | jbool b =>
    refine ⟨if b then 't' else 'f', if b then "rue".data else "alse".data, ?_, ?_, ?_, ?_⟩
      <;> cases b <;> first | rfl | decide
  | jnum i =>
    obtain ⟨d, tl, he, hd⟩ := intToChars_head i
    refine ⟨d, tl, he, ?_, ?_, ?_⟩ <;> rcases hd with rfl | hd
    · decide
    · exact (digit_head_facts d hd).1
    · decide
    · exact (digit_head_facts d hd).2.1
    · decide
    · exact (digit_head_facts d hd).2.2.1
  | jstr s => exact ⟨'"', _, rfl, by decide, by decide, by decide⟩
  | jarr xs => exact ⟨'[', _, rfl, by decide, by decide, by decide⟩
  | jobj fs => exact ⟨'\x7b', _, rfl, by decide, by decide, by decide⟩

/-! ### JSON parse of stringify -/

theorem parseValStepStr (f : Nat) (Y : List Char) :
    parseVal (f + 1) ('"' :: Y) = (parseStr Y).map (fun p => (Json.jstr p.1, p.2)) := rfl

theorem parseValStepArr (f : Nat) (Y : List Char) :
    parseVal (f + 1) ('[' :: Y) =
      (match skipWs Y with
        | ']' :: r2 => some (Json.jarr .nil, r2)
        | _ => (parseElems f Y).map (fun p => (Json.jarr p.1, p.2))) := rfl

theorem parseValStepObj (f : Nat) (Y : List Char) :
    parseVal (f + 1) ('\x7b' :: Y) =
      (match skipWs Y with
        | '\x7d' :: r2 => some (Json.jobj .nil, r2)
        | _ => (parseFields f Y).map (fun p => (Json.jobj (buildObj p.1), p.2))) := rfl

theorem parseValStepNumHead (f : Nat) (c : Char) (X : List Char) (hws : isJsonWs c = false)
    (h1 : ¬c = 'n') (h2 : ¬c = 't') (h3 : ¬c = 'f') (h4 : ¬c = '"') (h5 : ¬c = '[')
    (h6 : ¬c = '\x7b') (h7 : c = '-' ∨ isDecDigit c = true) :
    parseVal (f + 1) (c :: X) = parseNumber (c :: X) := by
  simp only [parseVal]
  have hsk : skipWs (c :: X) = c :: X := by
    simp [skipWs, List.dropWhile_cons, hws]
  rw [hsk]
  split
  · rename_i heq
    exact absurd heq (by simp)
  · rename_i c2 rest2 heq
    injection heq with hc hr
    subst hc
    subst hr
    rw [if_neg h1, if_neg h2, if_neg h3, if_neg h4, if_neg h5, if_neg h6, if_pos h7]

theorem parseElemsStepSome (f : Nat) (s : List Char) (x : Json) (r : List Char)
    (h : parseVal f s = some (x, r)) :
    parseElems (f + 1) s =
      (match skipWs r with
        | ',' :: r2 => (parseElems f r2).map (fun p => (JsonList.cons x p.1, p.2))
        | ']' :: r2 => some (.cons x .nil, r2)
        | _ => none) := by
  simp only [parseElems, h]

theorem parseFieldsStep (f : Nat) (Y : List Char) :
    parseFields (f + 1) ('"' :: Y) =
      (match parseStr Y with
        | none => none
        | some (k2, r2) =>
          match skipWs r2 with
          | ':' :: r3 =>
            match parseVal f r3 with
            | none => none
            | some (v2, r4) =>
              match skipWs r4 with
              | ',' :: r5 => (parseFields f r5).map (fun p => (JsonFields.cons k2 v2 p.1, p.2))
              | '\x7d' :: r5 => some (.cons k2 v2 .nil, r5)
              | _ => none
          | _ => none) := rfl

theorem pvalNull : PVal .jnull := by
  intro fuel rest hf _ _
  rw [show Json.jsize .jnull = 1 from rfl] at hf
  obtain ⟨f, rfl⟩ : ∃ f, fuel = f + 1 := ⟨fuel - 1, by omega⟩
  rfl

theorem pvalBool : ∀ b : Bool, PVal (.jbool b) := by
  intro b fuel rest hf _ _
  rw [show Json.jsize (.jbool b) = 1 from rfl] at hf
  obtain ⟨f, rfl⟩ : ∃ f, fuel = f + 1 := ⟨fuel - 1, by omega⟩
  cases b <;> rfl

theorem pvalNum : ∀ i : Int, PVal (.jnum i) := by
  intro i fuel rest hf hrest _
  rw [show Json.jsize (.jnum i) = 1 from rfl] at hf
  obtain ⟨f, rfl⟩ : ∃ f, fuel = f + 1 := ⟨fuel - 1, by omega⟩
  obtain ⟨d, tl, he, hd⟩ := intToChars_head i
  rw [show jsonStringify (.jnum i) = intToChars i from rfl, he, List.cons_append]
  have hfacts : isJsonWs d = false ∧ ¬d = 'n' ∧ ¬d = 't' ∧ ¬d = 'f' ∧ ¬d = '"' ∧
      ¬d = '[' ∧ ¬d = '\x7b' := by
    rcases hd with rfl | hd
    · exact ⟨by decide, by decide, by decide, by decide, by decide, by decide, by decide⟩
    · obtain ⟨hws, _, _, h4, h5, h6, h7, h8, h9⟩ := digit_head_facts d hd
      exact ⟨hws, h4, h5, h6, h7, h8, h9⟩
  rw [parseValStepNumHead f d (tl ++ rest) hfacts.1 hfacts.2.1 hfacts.2.2.1 hfacts.2.2.2.1
    hfacts.2.2.2.2.1 hfacts.2.2.2.2.2.1 hfacts.2.2.2.2.2.2 hd]
  rw [← List.cons_append, ← he]
  exact parseNumber_intToChars i rest hrest

theorem pvalStr : ∀ s : List Char, PVal (.jstr s) := by
  intro s fuel rest hf _ _
  rw [show Json.jsize (.jstr s) = 1 from rfl] at hf
  obtain ⟨f, rfl⟩ : ∃ f, fuel = f + 1 := ⟨fuel - 1, by omega⟩
  have hstr : jsonStringify (.jstr s) ++ rest =
      '"' :: ((s.map escChar).flatten ++ '"' :: rest) := by
    show quoteStr s ++ rest = _
    simp [quoteStr]
  rw [hstr, parseValStepStr, parseStr_escaped]
  rfl

theorem pvalArr : ∀ xs : JsonList, QElems xs → PVal (.jarr xs) := by
  intro xs hQ fuel rest hf hrest hwf
  rw [show Json.jsize (.jarr xs) = 1 + JsonList.lsize xs from rfl] at hf
  obtain ⟨f, rfl⟩ : ∃ f, fuel = f + 1 := ⟨fuel - 1, by omega⟩
  cases xs with
  | nil =>
    rw [show jsonStringify (.jarr .nil) ++ rest = '[' :: ']' :: rest from rfl]
    rfl
  | cons x xs2 =>
    have hstr : jsonStringify (.jarr (.cons x xs2)) ++ rest =
        '[' :: (stringifyElems (.cons x xs2) ++ ']' :: rest) := by
      show ('[' :: stringifyElems (.cons x xs2) ++ [']']) ++ rest = _
      simp
    rw [hstr, parseValStepArr]
    obtain ⟨c, tl, hx, hws, hbr, _⟩ := stringifyHead x
    have hse : ∃ tl2, stringifyElems (.cons x xs2) = c :: tl2 := by
      cases xs2 with
      | nil => exact ⟨tl, by simp [stringifyElems, hx]⟩
      | cons y ys =>
        exact ⟨tl ++ ',' :: stringifyElems (.cons y ys), by simp [stringifyElems, hx]⟩
    obtain ⟨tl2, hse⟩ := hse
    rw [hse, List.cons_append]
    have hsk : skipWs (c :: (tl2 ++ ']' :: rest)) = c :: (tl2 ++ ']' :: rest) := by
      simp [skipWs, List.dropWhile_cons, hws]
    rw [hsk]
    split
    · rename_i heq
      injection heq with hc _
      exact absurd hc hbr
    · rw [← List.cons_append, ← hse,
        hQ f rest (by omega)
          (by rw [show Json.wf (.jarr (.cons x xs2)) = JsonList.wfL (.cons x xs2) from rfl]
                at hwf
              exact hwf)
          (fun h => JsonList.noConfusion h)]
      rfl

theorem pvalObj : ∀ fs : JsonFields, RFields fs → PVal (.jobj fs) := by
  intro fs hR fuel rest hf hrest hwf
  rw [show Json.jsize (.jobj fs) = 1 + JsonFields.fsize fs from rfl] at hf
  obtain ⟨f, rfl⟩ : ∃ f, fuel = f + 1 := ⟨fuel - 1, by omega⟩
  have hwfF : JsonFields.wfF fs = true := by
    rw [show Json.wf (.jobj fs) = JsonFields.wfF fs from rfl] at hwf
    exact hwf
  cases fs with
  | nil =>
    rw [show jsonStringify (.jobj .nil) ++ rest = '\x7b' :: '\x7d' :: rest from rfl]
    rfl
  | cons k v fs2 =>
    have hstr : jsonStringify (.jobj (.cons k v fs2)) ++ rest =
        '\x7b' :: (stringifyFields (.cons k v fs2) ++ '\x7d' :: rest) := by
      show ('\x7b' :: stringifyFields (.cons k v fs2) ++ ['\x7d']) ++ rest = _
      simp
    rw [hstr, parseValStepObj]
    have hse : ∃ tl2, stringifyFields (.cons k v fs2) = '"' :: tl2 := by
      cases fs2 with
      | nil => exact ⟨((k.map escChar).flatten ++ ['"']) ++ ':' :: jsonStringify v,
          by simp [stringifyFields, quoteStr]⟩
      | cons k2 v2 fs3 =>
        exact ⟨((k.map escChar).flatten ++ ['"']) ++ ':' :: jsonStringify v ++
            ',' :: stringifyFields (.cons k2 v2 fs3),
          by simp [stringifyFields, quoteStr]⟩
    obtain ⟨tl2, hse⟩ := hse
    rw [hse, List.cons_append]
    have hsk : skipWs ('"' :: (tl2 ++ '\x7d' :: rest)) = '"' :: (tl2 ++ '\x7d' :: rest) := by
      simp [skipWs, List.dropWhile_cons, show isJsonWs '"' = false from rfl]
    rw [hsk]
    split
    · rename_i heq
      injection heq with hc _
      exact absurd hc (by decide)
    · rw [← List.cons_append, ← hse,
        hR f rest (by omega) hwfF (fun h => JsonFields.noConfusion h)]
      simp only [Option.map]
      rw [buildObj_self _ hwfF]

theorem qelemsNil : QElems .nil := by
  intro fuel rest _ _ hne
  exact absurd rfl hne

theorem qelemsCons : ∀ (x : Json) (xs : JsonList), PVal x → QElems xs →
    QElems (.cons x xs) := by
  intro x xs hP hQ fuel rest hf hwf _
  rw [show JsonList.lsize (.cons x xs) = 1 + Json.jsize x + JsonList.lsize xs from rfl] at hf
  rw [show JsonList.wfL (.cons x xs) = (Json.wf x && JsonList.wfL xs) from rfl] at hwf
  simp only [Bool.and_eq_true] at hwf
  obtain ⟨f, rfl⟩ : ∃ f, fuel = f + 1 := ⟨fuel - 1, by omega⟩
  cases xs with
  | nil =>
    rw [show stringifyElems (.cons x .nil) = jsonStringify x from rfl]
    rw [parseElemsStepSome f _ x (']' :: rest)
      (hP f (']' :: rest) (by omega) (by rfl) hwf.1)]
    rfl
  | cons y ys =>
    rw [show stringifyElems (.cons x (.cons y ys)) =
      jsonStringify x ++ ',' :: stringifyElems (.cons y ys) from rfl]
    rw [List.append_assoc]
    rw [show (',' :: stringifyElems (.cons y ys)) ++ ']' :: rest =
      ',' :: (stringifyElems (.cons y ys) ++ ']' :: rest) from by simp]
    rw [parseElemsStepSome f _ x (',' :: (stringifyElems (.cons y ys) ++ ']' :: rest))
      (hP f _ (by omega) (by rfl) hwf.1)]
    show (parseElems f (stringifyElems (.cons y ys) ++ ']' :: rest)).map
        (fun p => (JsonList.cons x p.1, p.2)) = some (.cons x (.cons y ys), rest)
    rw [hQ f rest (by omega) hwf.2 (fun h => JsonList.noConfusion h)]
    rfl

theorem rfieldsNil : RFields .nil := by
  intro fuel rest _ _ hne
  exact absurd rfl hne

theorem rfieldsCons : ∀ (k : List Char) (v : Json) (fs : JsonFields), PVal v → RFields fs →
    RFields (.cons k v fs) := by
  intro k v fs hP hR fuel rest hf hwf _
  rw [show JsonFields.fsize (.cons k v fs) = 1 + Json.jsize v + JsonFields.fsize fs from
    rfl] at hf
  rw [show JsonFields.wfF (.cons k v fs) =
    (keyAbsent k fs && Json.wf v && JsonFields.wfF fs) from rfl] at hwf
  simp only [Bool.and_eq_true] at hwf
  obtain ⟨f, rfl⟩ : ∃ f, fuel = f + 1 := ⟨fuel - 1, by omega⟩
  cases fs with
  | nil =>
    have hshape : stringifyFields (.cons k v .nil) ++ '\x7d' :: rest =
        '"' :: ((k.map escChar).flatten ++ '"' ::
          (':' :: (jsonStringify v ++ '\x7d' :: rest))) := by
      show (quoteStr k ++ ':' :: jsonStringify v) ++ '\x7d' :: rest = _
      simp [quoteStr]
    rw [hshape, parseFieldsStep, parseStr_escaped]
    show (match parseVal f (jsonStringify v ++ '\x7d' :: rest) with
      | none => none
      | some (v2, r4) =>
        match skipWs r4 with
        | ',' :: r5 => (parseFields f r5).map (fun p => (JsonFields.cons k v2 p.1, p.2))
        | '\x7d' :: r5 => some (.cons k v2 .nil, r5)
        | _ => none) = some (.cons k v .nil, rest)
    rw [hP f ('\x7d' :: rest) (by omega) (by rfl) hwf.1.2]
    rfl
  | cons k2 v2 fs3 =>
    have hshape : stringifyFields (.cons k v (.cons k2 v2 fs3)) ++ '\x7d' :: rest =
        '"' :: ((k.map escChar).flatten ++ '"' ::
          (':' :: (jsonStringify v ++
            ',' :: (stringifyFields (.cons k2 v2 fs3) ++ '\x7d' :: rest)))) := by
      show (quoteStr k ++ ':' :: jsonStringify v ++
        ',' :: stringifyFields (.cons k2 v2 fs3)) ++ '\x7d' :: rest = _
      simp [quoteStr]
    rw [hshape, parseFieldsStep, parseStr_escaped]
    show (match parseVal f (jsonStringify v ++
        ',' :: (stringifyFields (.cons k2 v2 fs3) ++ '\x7d' :: rest)) with
      | none => none
      | some (v2x, r4) =>
        match skipWs r4 with
        | ',' :: r5 => (parseFields f r5).map (fun p => (JsonFields.cons k v2x p.1, p.2))
        | '\x7d' :: r5 => some (.cons k v2x .nil, r5)
        | _ => none) = some (.cons k v (.cons k2 v2 fs3), rest)
    rw [hP f _ (by omega) (by rfl) hwf.1.2]
    show (parseFields f (stringifyFields (.cons k2 v2 fs3) ++ '\x7d' :: rest)).map
        (fun p => (JsonFields.cons k v p.1, p.2)) = some (.cons k v (.cons k2 v2 fs3), rest)
    rw [hR f rest (by omega) hwf.2 (fun h => JsonFields.noConfusion h)]
    rfl

theorem pval_all : ∀ v : Json, PVal v :=
  @Json.rec PVal QElems RFields pvalNull pvalBool pvalNum pvalStr pvalArr pvalObj
    qelemsNil qelemsCons rfieldsNil rfieldsCons

theorem jsize_le_len : ∀ v : Json, Json.jsize v ≤ (jsonStringify v).length := by
  refine @Json.rec (fun v => Json.jsize v ≤ (jsonStringify v).length)
    (fun xs => JsonList.lsize xs ≤ (stringifyElems xs).length + 1)
    (fun fs => JsonFields.fsize fs ≤ (stringifyFields fs).length + 1)
    (by decide) (fun b => by cases b <;> decide)
    ?_ ?_ ?_ ?_ (by decide) ?_ (by decide) ?_
  · intro i
    obtain ⟨d, tl, he, _⟩ := intToChars_head i
    rw [show Json.jsize (.jnum i) = 1 from rfl,
      show jsonStringify (.jnum i) = intToChars i from rfl, he]
    simp
  · intro s
    rw [show Json.jsize (.jstr s) = 1 from rfl,
      show jsonStringify (.jstr s) = quoteStr s from rfl]
    simp [quoteStr]
  · intro xs ih
    rw [show Json.jsize (.jarr xs) = 1 + JsonList.lsize xs from rfl,
      show jsonStringify (.jarr xs) = '[' :: stringifyElems xs ++ [']'] from rfl]
    simp only [List.length_cons, List.length_append, List.length_nil]
    omega
  · intro fs ih
    rw [show Json.jsize (.jobj fs) = 1 + JsonFields.fsize fs from rfl,
      show jsonStringify (.jobj fs) = '\x7b' :: stringifyFields fs ++ ['\x7d'] from rfl]
    simp only [List.length_cons, List.length_append, List.length_nil]
    omega
  · intro x xs ihx ihxs
    cases xs with
    | nil =>
      rw [show JsonList.lsize (.cons x .nil) = 1 + Json.jsize x + 0 from rfl,
        show stringifyElems (.cons x .nil) = jsonStringify x from rfl]
      omega
    | cons y ys =>
      rw [show JsonList.lsize (.cons x (.cons y ys)) =
          1 + Json.jsize x + JsonList.lsize (.cons y ys) from rfl,
        show stringifyElems (.cons x (.cons y ys)) =
          jsonStringify x ++ ',' :: stringifyElems (.cons y ys) from rfl]
      simp only [List.length_append, List.length_cons]
      omega
  · intro k v fs ihv ihfs
    cases fs with
    | nil =>
      rw [show JsonFields.fsize (.cons k v .nil) = 1 + Json.jsize v + 0 from rfl,
        show stringifyFields (.cons k v .nil) = quoteStr k ++ ':' :: jsonStringify v from rfl]
      simp only [List.length_append, List.length_cons]
      omega
    | cons k2 v2 fs3 =>
      rw [show JsonFields.fsize (.cons k v (.cons k2 v2 fs3)) =
          1 + Json.jsize v + JsonFields.fsize (.cons k2 v2 fs3) from rfl,
        show stringifyFields (.cons k v (.cons k2 v2 fs3)) = quoteStr k ++
          ':' :: jsonStringify v ++ ',' :: stringifyFields (.cons k2 v2 fs3) from rfl]
      simp only [List.length_append, List.length_cons]
      omega

theorem jsonParse_stringify (v : Json) (hwf : Json.wf v = true) :
    jsonParse (jsonStringify v) = some v := by
  unfold jsonParse
  have h := pval_all v ((jsonStringify v).length + 1) []
    (by have := jsize_le_len v; omega) rfl hwf
  rw [List.append_nil] at h
  rw [h]
  rfl

/-! ### Segment encoding and decoding in the token pipeline -/

theorem utf8ToUint8Array_eq (s : List Char) :
    Jwt._utf8ToUint8Array s = some (utf8Encode s) := by
  unfold Jwt._utf8ToUint8Array
  exact parse_btoa _ (utf8Encode_lt_256 s)

theorem segSub_stringify (b : List Nat) :
    Jwt.segSub (Base64URL.stringify b) = (sextets b).map b64EncChar := by
  unfold Jwt.segSub
  rw [stringify_eq, List.map_map, List.map_map, List.map_map]
  simp only [Function.comp_def]
  exact List.map_congr_left (fun s _ => (b64EncChar_facts s).2.2.2.2.2.2)

theorem decodePayload_of_stringify (b : List Nat) :
    Jwt._decodePayload (Jwt.segSub (Base64URL.stringify b)) =
      .ok (Jwt.tryParseSegment (btoaFn b)) := by
  rw [segSub_stringify]
  have hmod := sextets_length_mod b
  have hlen : ((sextets b).map b64EncChar).length = (sextets b).length := List.length_map _ _
  unfold Jwt._decodePayload
  rcases hmod with ⟨h3, h4⟩ | ⟨h3, h4⟩ | ⟨h3, h4⟩
  · rw [show ((sextets b).map b64EncChar).length % 4 = 0 from by rw [hlen]; exact h4]
    have hpad : btoaFn b = (sextets b).map b64EncChar := by
      unfold btoaFn b64Pad
      rw [h3]
      simp
    rw [hpad]
    norm_num
  · rw [show ((sextets b).map b64EncChar).length % 4 = 2 from by rw [hlen]; exact h4]
    have hpad : btoaFn b = (sextets b).map b64EncChar ++ ['=', '='] := by
      unfold btoaFn b64Pad
      rw [h3]
    rw [hpad]
    norm_num
  · rw [show ((sextets b).map b64EncChar).length % 4 = 3 from by rw [hlen]; exact h4]
    have hpad : btoaFn b = (sextets b).map b64EncChar ++ ['='] := by
      unfold btoaFn b64Pad
      rw [h3]
    rw [hpad]
    norm_num

theorem tryParseSegment_of_json (v : Json) (hwf : Json.wf v = true) :
    Jwt.tryParseSegment (btoaFn (utf8Encode (jsonStringify v))) = v := by
  unfold Jwt.tryParseSegment
  rw [atobFn_btoa _ (utf8Encode_lt_256 _)]
  show (match utf8Decode (utf8Encode (jsonStringify v)) with
    | none => Json.jnull
    | some s =>
      match jsonParse s with
      | none => Json.jnull
      | some v2 => v2) = v
  rw [utf8Decode_encode]
  show (match jsonParse (jsonStringify v) with
    | none => Json.jnull
    | some v2 => v2) = v
  rw [jsonParse_stringify v hwf]

/-- decode applied to a segment produced by sign recovers the serialized
value exactly. -/
theorem decodeSegment_roundtrip (v : Json) (hwf : Json.wf v = true) :
    Jwt._decodePayload (Jwt.segSub (Base64URL.stringify (utf8Encode (jsonStringify v)))) =
      .ok v := by
  rw [decodePayload_of_stringify, tryParseSegment_of_json v hwf]

/-! ### Splitting tokens -/

theorem jsSplit_no_sep (sep : Char) : ∀ a : List Char, sep ∉ a → jsSplit sep a = [a] := by
  intro a
  induction a with
  | nil => intro _; rfl
  | cons c t ih =>
    intro h
    have hc : ¬ c = sep := fun hh => h (by simp [hh])
    simp only [jsSplit, if_neg hc]
    rw [ih (fun hm => h (by simp [hm]))]

theorem jsSplit_append_sep (sep : Char) : ∀ a b : List Char, sep ∉ a →
    jsSplit sep (a ++ sep :: b) = a :: jsSplit sep b := by
  intro a
  induction a with
  | nil =>
    intro b _
    simp [jsSplit]
  | cons c t ih =>
    intro b h
    have hc : ¬ c = sep := fun hh => h (by simp [hh])
    simp only [List.cons_append, jsSplit, if_neg hc, List.append_eq]
    rw [ih b (fun hm => h (by simp [hm]))]

theorem jsSplit_token (hp pp sp : List Char) (h1 : '.' ∉ hp) (h2 : '.' ∉ pp)
    (h3 : '.' ∉ sp) :
    jsSplit '.' (hp ++ '.' :: (pp ++ '.' :: sp)) = [hp, pp, sp] := by
  rw [jsSplit_append_sep _ _ _ h1, jsSplit_append_sep _ _ _ h2, jsSplit_no_sep _ _ h3]

theorem decode_of_parts (hp pp sp : List Char) (h1 : '.' ∉ hp) (h2 : '.' ∉ pp)
    (h3 : '.' ∉ sp) :
    Jwt.decode (hp ++ '.' :: (pp ++ '.' :: sp)) =
      (match Jwt._decodePayload (Jwt.segSub hp) with
        | .error e => .error e
        | .ok h =>
          match Jwt._decodePayload (Jwt.segSub pp) with
          | .error e => .error e
          | .ok p => .ok ⟨h, p⟩) := by
  unfold Jwt.decode
  rw [jsSplit_token hp pp sp h1 h2 h3]
  rfl

/-! ### Object update and lookup -/

theorem keyAbsent_objInsert (fs : JsonFields) (k0 k : List Char) (v : Json)
    (h : keyAbsent k0 fs = true) (hne : k0 ≠ k) :
    keyAbsent k0 (objInsert fs k v) = true := by
  induction fs using jsonFieldsInduction with
  | hnil =>
    simp [objInsert, keyAbsent]
    exact fun hc => hne hc.symm
  | hcons k1 v1 fs1 ih =>
    simp only [keyAbsent, Bool.and_eq_true, decide_eq_true_eq] at h
    unfold objInsert
    split
    · simp only [keyAbsent, Bool.and_eq_true, decide_eq_true_eq]
      exact ⟨h.1, h.2⟩
    · simp only [keyAbsent, Bool.and_eq_true, decide_eq_true_eq]
      exact ⟨h.1, ih h.2⟩

theorem wfF_objInsert (fs : JsonFields) (k : List Char) (v : Json)
    (hv : Json.wf v = true) (h : JsonFields.wfF fs = true) :
    JsonFields.wfF (objInsert fs k v) = true := by
  induction fs using jsonFieldsInduction with
  | hnil =>
    simp only [objInsert]
    rw [show JsonFields.wfF (.cons k v .nil) = (keyAbsent k .nil && Json.wf v &&
      JsonFields.wfF .nil) from rfl]
    simp [keyAbsent, JsonFields.wfF, hv]
  | hcons k1 v1 fs1 ih =>
    rw [show JsonFields.wfF (.cons k1 v1 fs1) = (keyAbsent k1 fs1 && Json.wf v1 &&
      JsonFields.wfF fs1) from rfl] at h
    simp only [Bool.and_eq_true] at h
    unfold objInsert
    split
    · rename_i heq
      rw [show JsonFields.wfF (.cons k1 v fs1) = (keyAbsent k1 fs1 && Json.wf v &&
        JsonFields.wfF fs1) from rfl]
      simp [h.1.1, h.2, hv]
    · rename_i hne
      rw [show JsonFields.wfF (.cons k1 v1 (objInsert fs1 k v)) =
        (keyAbsent k1 (objInsert fs1 k v) && Json.wf v1 &&
          JsonFields.wfF (objInsert fs1 k v)) from rfl]
      simp [keyAbsent_objInsert fs1 k1 k v h.1.1 hne, h.1.2, ih h.2]

theorem lookupField_objInsert_same (fs : JsonFields) (k : List Char) (v : Json) :
    lookupField (objInsert fs k v) k = some v := by
  induction fs using jsonFieldsInduction with
  | hnil => simp [objInsert, lookupField]
  | hcons k1 v1 fs1 ih =>
    unfold objInsert
    split
    · rename_i heq
      simp [lookupField, heq]
    · rename_i hne
      simp [lookupField, hne, ih]

theorem lookupField_objInsert_other (fs : JsonFields) (k : List Char) (v : Json)
    (k2 : List Char) (h : k2 ≠ k) :
    lookupField (objInsert fs k v) k2 = lookupField fs k2 := by
  induction fs using jsonFieldsInduction with
  | hnil =>
    simp [objInsert, lookupField]
    exact fun hc => absurd hc.symm h
  | hcons k1 v1 fs1 ih =>
    unfold objInsert
    split
    · rename_i heq
      subst heq
      simp only [lookupField]
      rw [if_neg (fun hc => h hc.symm), if_neg (fun hc => h hc.symm)]
    · rename_i hne
      simp only [lookupField]
      split
      · rfl
      · exact ih

/-! ### Structure of a successfully produced token -/

set_option maxHeartbeats 1000000 in
theorem sign_ok_structure {K : Type} (subtle : SubtleCrypto K) (now : Int) (payload : Json)
    (secret : List Char) (optsArg : JwtSignOptionsArg) (tok : List Char) (p2 : Json)
    (h : Jwt.sign subtle now payload secret optsArg = .ok (tok, p2)) :
    ∃ sig : List Nat,
      payload.isObjectLike = true ∧
      (Jwt.algorithms (normSignOptions optsArg).algorithm).isSome = true ∧
      p2 = jsSetIat payload (.jnum now) ∧
      tok = Base64URL.stringify (utf8Encode (jsonStringify
          (Json.jobj (objInsert (normSignOptions optsArg).header "alg".data
            (.jstr (normSignOptions optsArg).algorithm))))) ++
        '.' :: (Base64URL.stringify (utf8Encode (jsonStringify p2)) ++
        '.' :: Base64URL.stringify sig) := by
  unfold Jwt.sign at h
  simp only [utf8ToUint8Array_eq] at h
  split at h
  · exact absurd h (by simp)
  · rename_i hobj
    split at h
    · exact absurd h (by simp)
    · rename_i algorithm halg
      split at h
      · exact absurd h (by simp)
      · split at h
        · exact absurd h (by simp)
        · rename_i key hkey
          split at h
          · exact absurd h (by simp)
          · rename_i sig hsig
            simp only [Except.ok.injEq, Prod.mk.injEq] at h
            refine ⟨sig, by simpa using hobj, by rw [halg]; rfl, h.2.symm, ?_⟩
            rw [← h.1, ← h.2]
            simp

/-! ### Helper facts for the claims -/

theorem segSub_length (s : List Char) : (Jwt.segSub s).length = s.length := by
  simp [Jwt.segSub]

theorem jsSplit_ne_nil (sep : Char) : ∀ s : List Char, jsSplit sep s ≠ [] := by
  intro s
  induction s with
  | nil => exact fun h => List.noConfusion h
  | cons c t ih =>
    unfold jsSplit
    split
    · exact fun h => List.noConfusion h
    · split
      · exact fun h => List.noConfusion h
      · exact fun h => List.noConfusion h

theorem decodePayload_error_iff (raw : List Char) :
    (∃ e, Jwt._decodePayload raw = .error e) ↔ raw.length % 4 = 1 := by
  unfold Jwt._decodePayload
  have h4 : raw.length % 4 = 0 ∨ raw.length % 4 = 1 ∨ raw.length % 4 = 2 ∨
      raw.length % 4 = 3 := by omega
  rcases h4 with h | h | h | h <;> rw [h] <;> simp

theorem wf_jsSetIat (p v : Json) (hp : Json.wf p = true) (hv : Json.wf v = true) :
    Json.wf (jsSetIat p v) = true := by
  cases p with
  | jnull => exact hp
  | jbool b => exact hp
  | jnum n => exact hp
  | jstr s => exact hp
  | jarr xs => exact hp
  | jobj fs =>
    rw [show jsSetIat (.jobj fs) v = .jobj (objInsert fs "iat".data v) from rfl]
    rw [show Json.wf (Json.jobj (objInsert fs "iat".data v)) =
      JsonFields.wfF (objInsert fs "iat".data v) from rfl]
    exact wfF_objInsert fs _ v hv
      (by rw [show Json.wf (Json.jobj fs) = JsonFields.wfF fs from rfl] at hp; exact hp)

/-! ### The claims -/

set_option maxHeartbeats 1000000 in
/-- C1: verify returns true only via the cryptographic primitive: a true
result implies the token split into exactly three dot separated parts, the
algorithm was found, decode succeeded with a truthy payload, the nbf and exp
temporal checks passed, the key material was imported for the verify
capability, and the external primitive returned true over the signing input
(header part, a dot, payload part) and the base64url decoded signature
bytes; no other code path produces true. -/
theorem verify_true_only_via_primitive {K : Type} (subtle : SubtleCrypto K) (now : Int)
    (token secret : List Char) (optsArg : JwtVerifyOptionsArg)
    (h : Jwt.verify subtle now token secret optsArg = .ok true) :
    ∃ (algorithm : AlgParams) (decoded : Jwt.JwtData) (fmt : String) (keyData : List Nat)
      (key : K) (sig : List Nat),
      (jsSplit '.' token).length = 3 ∧
      Jwt.algorithms (normVerifyOptions optsArg).algorithm = some algorithm ∧
      Jwt.decode token = .ok decoded ∧
      decoded.payload.truthy = true ∧
      nbfViolated decoded.payload now = false ∧
      expViolated decoded.payload now = false ∧
      Jwt.verifyKeyData secret = .ok (fmt, keyData) ∧
      subtle.importKey fmt keyData algorithm ["verify"] = .ok key ∧
      Base64URL.parse ((jsSplit '.' token).getD 2 []) = some sig ∧
      subtle.verify algorithm key sig
        (utf8Encode ((jsSplit '.' token).getD 0 [] ++
          '.' :: (jsSplit '.' token).getD 1 [])) = .ok true := by
  unfold Jwt.verify at h
  rw [utf8ToUint8Array_eq] at h
  split at h
  · exact absurd h (by simp)
  · rename_i hsplit
    split at h
    · exact absurd h (by simp)
    · rename_i algorithm halg
      split at h
      · exact absurd h (by simp)
      · rename_i decoded hdec
        split at h
        · split at h <;> exact absurd h (by simp)
        · rename_i htru
          split at h
          · split at h <;> exact absurd h (by simp)
          · rename_i hnbf
            split at h
            · split at h <;> exact absurd h (by simp)
            · rename_i hexp
              split at h
              · exact absurd h (by simp)
              · rename_i fmt keyData hkd
                split at h
                · exact absurd h (by simp)
                · rename_i key hkey
                  split at h
                  · exact absurd h (by simp)
                  · rename_i sig hsig
                    exact ⟨algorithm, decoded, fmt, keyData, key, sig,
                      by omega, halg, hdec, by simpa using htru,
                      by simpa using hnbf, by simpa using hexp, hkd, hkey, hsig, h⟩

/-- Witness for C1 at a concrete token with a truthy numeric payload. -/
theorem verify_true_only_via_primitive_witness :
    Jwt.verify (unitSubtle true) 0 "e30.MQ.AA".data "s".data .noArg = .ok true ∧
    (∃ (algorithm : AlgParams) (decoded : Jwt.JwtData) (fmt : String) (keyData : List Nat)
      (key : Unit) (sig : List Nat),
      (jsSplit '.' "e30.MQ.AA".data).length = 3 ∧
      Jwt.algorithms (normVerifyOptions .noArg).algorithm = some algorithm ∧
      Jwt.decode "e30.MQ.AA".data = .ok decoded ∧
      decoded.payload.truthy = true ∧
      nbfViolated decoded.payload 0 = false ∧
      expViolated decoded.payload 0 = false ∧
      Jwt.verifyKeyData "s".data = .ok (fmt, keyData) ∧
      (unitSubtle true).importKey fmt keyData algorithm ["verify"] = .ok key ∧
      Base64URL.parse ((jsSplit '.' "e30.MQ.AA".data).getD 2 []) = some sig ∧
      (unitSubtle true).verify algorithm key sig
        (utf8Encode ((jsSplit '.' "e30.MQ.AA".data).getD 0 [] ++
          '.' :: (jsSplit '.' "e30.MQ.AA".data).getD 1 [])) = .ok true) :=
  ⟨rfl, verify_true_only_via_primitive (unitSubtle true) 0 "e30.MQ.AA".data "s".data
    .noArg rfl⟩

/-- C2 counterexample: decode does throw: on a token whose selected segment
has base64 length 1 modulo 4 the padding switch raises an error that no try
block catches, contradicting that decode never throws. -/
theorem decode_throws_on_illegal_segment :
    Jwt.decode "a".data = .error (.errorObj "Illegal base64url string!") := rfl

/-- C2 amended: decode throws exactly when the first segment has length 1
modulo 4, or the token has no second segment, or the second segment has
length 1 modulo 4; every other token yields an ok result. -/
theorem decode_error_characterization (token : List Char) :
    (∃ e, Jwt.decode token = .error e) ↔
      ((jsSplit '.' token).getD 0 []).length % 4 = 1 ∨
      (jsSplit '.' token).length = 1 ∨
      ((jsSplit '.' token).getD 1 []).length % 4 = 1 := by
  unfold Jwt.decode
  rcases hsp : jsSplit '.' token with _ | ⟨p0, rest⟩
  · exact absurd hsp (jsSplit_ne_nil '.' token)
  · rcases hd0 : Jwt._decodePayload (Jwt.segSub p0) with e0 | v0
    · have h1 : p0.length % 4 = 1 := by
        have := (decodePayload_error_iff (Jwt.segSub p0)).mp ⟨e0, hd0⟩
        rwa [segSub_length] at this
      simp [hd0, h1]
    · have h0 : ¬ p0.length % 4 = 1 := by
        intro hc
        obtain ⟨e, he⟩ := (decodePayload_error_iff (Jwt.segSub p0)).mpr
          (by rwa [segSub_length])
        rw [hd0] at he
        exact Except.noConfusion he
      cases rest with
      | nil => simp [hd0, h0]
      | cons p1 rest2 =>
        rcases hd1 : Jwt._decodePayload (Jwt.segSub p1) with e1 | v1
        · have h1 : p1.length % 4 = 1 := by
            have := (decodePayload_error_iff (Jwt.segSub p1)).mp ⟨e1, hd1⟩
            rwa [segSub_length] at this
          simp [hd0, hd1, h1]
        · have h1 : ¬ p1.length % 4 = 1 := by
            intro hc
            obtain ⟨e, he⟩ := (decodePayload_error_iff (Jwt.segSub p1)).mpr
              (by rwa [segSub_length])
            rw [hd1] at he
            exact Except.noConfusion he
          simp [hd0, hd1, h0, h1]

/-- C3 counterexample: a payload carrying exp = 0 at a current time far past
it is not reported EXPIRED: zero is falsy, the truthiness guard skips the
expiry comparison, and verification proceeds to return ok true. -/
theorem verify_exp_zero_skips_expiry :
    (Jwt.decode "e30.eyJleHAiOjB9.AA".data).map
      (fun d => d.payload.getProp "exp".data) = .ok (some (.jnum 0)) ∧
    Jwt.verify (unitSubtle true) 100 "e30.eyJleHAiOjB9.AA".data "s".data
      (.obj none (some true)) = .ok true := ⟨rfl, rfl⟩

/-- C3 amended: the expiry check fires whenever the decoded payload carries a
truthy (nonzero) numeric exp at most the current time: verify then yields the
EXPIRED outcome, throwing when throwErr is set and returning false
otherwise, without reaching the signature check. -/
theorem verify_expired_when_exp_truthy {K : Type} (subtle : SubtleCrypto K) (now : Int)
    (token secret : List Char) (optsArg : JwtVerifyOptionsArg) (ap : AlgParams)
    (decoded : Jwt.JwtData) (n : Int)
    (hsplit : (jsSplit '.' token).length = 3)
    (halg : Jwt.algorithms (normVerifyOptions optsArg).algorithm = some ap)
    (hdec : Jwt.decode token = .ok decoded)
    (htru : decoded.payload.truthy = true)
    (hnbf : nbfViolated decoded.payload now = false)
    (hget : decoded.payload.getProp "exp".data = some (.jnum n))
    (hn0 : n ≠ 0) (hle : n ≤ now) :
    Jwt.verify subtle now token secret optsArg =
      (if (normVerifyOptions optsArg).throwErr then .error (.strTag "EXPIRED")
       else .ok false) := by
  have hev : expViolated decoded.payload now = true := by
    unfold expViolated
    rw [hget]
    simp [Json.truthy, jsToNumber, hn0, hle]
  unfold Jwt.verify
  rw [if_neg (fun hc => hc hsplit), halg, hdec]
  simp [htru, hnbf, hev]

/-- Witness for the amended C3 at a concrete token with exp = 5 and time
100: the outcome is a thrown EXPIRED. -/
theorem verify_expired_when_exp_truthy_witness :
    (jsSplit '.' "e30.eyJleHAiOjV9.AA".data).length = 3 ∧
    Jwt.algorithms (normVerifyOptions (.obj none (some true))).algorithm =
      some ⟨"HMAC", none, "SHA-256"⟩ ∧
    Jwt.decode "e30.eyJleHAiOjV9.AA".data =
      .ok ⟨.jobj .nil, .jobj (.cons "exp".data (.jnum 5) .nil)⟩ ∧
    (Json.jobj (.cons "exp".data (.jnum 5) .nil)).truthy = true ∧
    nbfViolated (.jobj (.cons "exp".data (.jnum 5) .nil)) 100 = false ∧
    (Json.jobj (.cons "exp".data (.jnum 5) .nil)).getProp "exp".data =
      some (.jnum 5) ∧
    (5 : Int) ≠ 0 ∧ (5 : Int) ≤ 100 ∧
    Jwt.verify (unitSubtle true) 100 "e30.eyJleHAiOjV9.AA".data "s".data
      (.obj none (some true)) = .error (.strTag "EXPIRED") :=
  ⟨rfl, rfl, rfl, rfl, rfl, rfl, by decide, by decide,
    verify_expired_when_exp_truthy (unitSubtle true) 100 "e30.eyJleHAiOjV9.AA".data
      "s".data (.obj none (some true)) ⟨"HMAC", none, "SHA-256"⟩
      ⟨.jobj .nil, .jobj (.cons "exp".data (.jnum 5) .nil)⟩ 5
      rfl rfl rfl rfl rfl rfl (by decide) (by decide)⟩

/-- C4 counterexample: when verify is called with no options argument the
algorithm used for the registry lookup is ES256, not HS256: the default
parameter value of the options argument wins the merge. -/
theorem verify_noArg_algorithm_not_hs256 :
    (normVerifyOptions .noArg).algorithm = "ES256".data ∧
    "ES256".data ≠ "HS256".data := ⟨rfl, by decide⟩

/-- C4 amended: an options object that omits algorithm does default to
HS256, but a call with no options argument defaults to ES256 and behaves
exactly as an explicit ES256 request. -/
theorem verify_default_algorithm {K : Type} (subtle : SubtleCrypto K) (now : Int)
    (token secret : List Char) (t : Option Bool) :
    (normVerifyOptions .noArg).algorithm = "ES256".data ∧
    (normVerifyOptions (.obj none t)).algorithm = "HS256".data ∧
    Jwt.verify subtle now token secret .noArg =
      Jwt.verify subtle now token secret (.algStr "ES256".data) :=
  ⟨rfl, rfl, rfl⟩

/-- C5: the alg header field is authoritative: whenever sign succeeds for a
caller supplied header (with well formed, duplicate free fields) and a
chosen algorithm string, the header segment of the produced token decodes
to an object whose alg field is exactly that algorithm string, every other
caller header field being preserved. -/
theorem sign_alg_header_authoritative {K : Type} (subtle : SubtleCrypto K) (now : Int)
    (payload : Json) (secret : List Char) (alg : List Char) (hdr : JsonFields)
    (tok : List Char) (p2 : Json)
    (hwfh : JsonFields.wfF hdr = true) (hwfp : Json.wf payload = true)
    (h : Jwt.sign subtle now payload secret (.obj (some alg) (some hdr)) = .ok (tok, p2)) :
    ∃ d : Jwt.JwtData, Jwt.decode tok = .ok d ∧
      d.header.getProp "alg".data = some (.jstr alg) ∧
      ∀ k : List Char, k ≠ "alg".data → d.header.getProp k = lookupField hdr k := by
  obtain ⟨sig, hobj, halg, hp2, htok⟩ :=
    sign_ok_structure subtle now payload secret _ tok p2 h
  simp only [normSignOptions, Option.getD_some] at htok
  have hwfhdr : Json.wf (Json.jobj (objInsert hdr "alg".data (.jstr alg))) = true := by
    rw [show Json.wf (Json.jobj (objInsert hdr "alg".data (.jstr alg))) =
      JsonFields.wfF (objInsert hdr "alg".data (.jstr alg)) from rfl]
    exact wfF_objInsert hdr _ _ rfl hwfh
  have hwfp2 : Json.wf p2 = true := by
    rw [hp2]
    exact wf_jsSetIat payload _ hwfp rfl
  refine ⟨⟨.jobj (objInsert hdr "alg".data (.jstr alg)), p2⟩, ?_, ?_, ?_⟩
  · rw [htok, decode_of_parts _ _ _ (stringify_no_dot _) (stringify_no_dot _)
      (stringify_no_dot _)]
    rw [decodeSegment_roundtrip _ hwfhdr, decodeSegment_roundtrip _ hwfp2]
  · show lookupField (objInsert hdr "alg".data (.jstr alg)) "alg".data = some (.jstr alg)
    exact lookupField_objInsert_same hdr _ _
  · intro k hk
    show lookupField (objInsert hdr "alg".data (.jstr alg)) k = lookupField hdr k
    exact lookupField_objInsert_other hdr "alg".data (.jstr alg) k hk

set_option maxRecDepth 4000 in
/-- Witness for C5: a caller header carrying its own alg field still yields
a token whose decoded header says HS256, the typ field surviving. -/
theorem sign_alg_header_authoritative_witness :
    JsonFields.wfF (.cons "typ".data (.jstr "JWT".data)
      (.cons "alg".data (.jstr "none".data) .nil)) = true ∧
    Json.wf (Json.jobj .nil) = true ∧
    Jwt.sign (unitSubtle true) 7 (.jobj .nil) "s".data
      (.obj (some "HS256".data) (some (.cons "typ".data (.jstr "JWT".data)
        (.cons "alg".data (.jstr "none".data) .nil)))) =
      .ok ("eyJ0eXAiOiJKV1QiLCJhbGciOiJIUzI1NiJ9.eyJpYXQiOjd9.AA".data,
        .jobj (.cons "iat".data (.jnum 7) .nil)) ∧
    (∃ d : Jwt.JwtData,
      Jwt.decode "eyJ0eXAiOiJKV1QiLCJhbGciOiJIUzI1NiJ9.eyJpYXQiOjd9.AA".data = .ok d ∧
      d.header.getProp "alg".data = some (.jstr "HS256".data) ∧
      ∀ k : List Char, k ≠ "alg".data → d.header.getProp k =
        lookupField (.cons "typ".data (.jstr "JWT".data)
          (.cons "alg".data (.jstr "none".data) .nil)) k) :=
  ⟨rfl, rfl, rfl,
    sign_alg_header_authoritative (unitSubtle true) 7 (.jobj .nil) "s".data
      "HS256".data (.cons "typ".data (.jstr "JWT".data)
        (.cons "alg".data (.jstr "none".data) .nil))
      "eyJ0eXAiOiJKV1QiLCJhbGciOiJIUzI1NiJ9.eyJpYXQiOjd9.AA".data
      (.jobj (.cons "iat".data (.jnum 7) .nil)) rfl rfl rfl⟩

set_option maxRecDepth 4000 in
/-- C6 counterexample: sign mutates its caller payload object: after a
successful call at time 9 with a payload carrying iat = 5, the caller
object holds iat = 9 (the second component of the modelled result is the
caller payload object as left after the call). -/
theorem sign_mutates_caller_payload :
    (Jwt.sign (unitSubtle true) 9 (.jobj (.cons "iat".data (.jnum 5) .nil)) "k".data
        .noArg).map Prod.snd = .ok (.jobj (.cons "iat".data (.jnum 9) .nil)) := rfl

/-- C6 amended: sign writes the current time into the caller payload object
in place: after every successful call the caller object equals the original
with its iat property set to the current time, every other property being
preserved. -/
theorem sign_payload_after_call {K : Type} (subtle : SubtleCrypto K) (now : Int)
    (fs : JsonFields) (secret : List Char) (optsArg : JwtSignOptionsArg)
    (tok : List Char) (p2 : Json)
    (h : Jwt.sign subtle now (.jobj fs) secret optsArg = .ok (tok, p2)) :
    p2 = .jobj (objInsert fs "iat".data (.jnum now)) ∧
    p2.getProp "iat".data = some (.jnum now) ∧
    ∀ k : List Char, k ≠ "iat".data → p2.getProp k = lookupField fs k := by
  obtain ⟨sig, hobj, halg, hp2, htok⟩ :=
    sign_ok_structure subtle now (.jobj fs) secret optsArg tok p2 h
  have hp2' : p2 = .jobj (objInsert fs "iat".data (.jnum now)) := hp2
  refine ⟨hp2', ?_, ?_⟩
  · rw [hp2']
    show lookupField (objInsert fs "iat".data (.jnum now)) "iat".data = some (.jnum now)
    exact lookupField_objInsert_same fs _ _
  · intro k hk
    rw [hp2']
    show lookupField (objInsert fs "iat".data (.jnum now)) k = lookupField fs k
    exact lookupField_objInsert_other fs "iat".data (.jnum now) k hk

set_option maxRecDepth 4000 in
/-- Witness for the amended C6 at a concrete payload with iat = 5 signed at
time 9. -/
theorem sign_payload_after_call_witness :
    Jwt.sign (unitSubtle true) 9 (.jobj (.cons "iat".data (.jnum 5) .nil)) "k".data
      .noArg = .ok ("eyJ0eXAiOiJKV1QiLCJhbGciOiJIUzI1NiJ9.eyJpYXQiOjl9.AA".data,
        .jobj (.cons "iat".data (.jnum 9) .nil)) ∧
    (Json.jobj (.cons "iat".data (.jnum 9) .nil) =
      .jobj (objInsert (.cons "iat".data (.jnum 5) .nil) "iat".data (.jnum 9)) ∧
    (Json.jobj (.cons "iat".data (.jnum 9) .nil)).getProp "iat".data =
      some (.jnum 9) ∧
    ∀ k : List Char, k ≠ "iat".data →
      (Json.jobj (.cons "iat".data (.jnum 9) .nil)).getProp k =
        lookupField (.cons "iat".data (.jnum 5) .nil) k) :=
  ⟨rfl, sign_payload_after_call (unitSubtle true) 9 (.cons "iat".data (.jnum 5) .nil)
    "k".data .noArg "eyJ0eXAiOiJKV1QiLCJhbGciOiJIUzI1NiJ9.eyJpYXQiOjl9.AA".data
    (.jobj (.cons "iat".data (.jnum 9) .nil)) rfl⟩

/-- C7: a token that does not split on dots into exactly three parts makes
verify throw, whatever the secret, the algorithm, and in particular the
throwErr option. -/
theorem verify_nonthree_parts_throws {K : Type} (subtle : SubtleCrypto K) (now : Int)
    (token secret : List Char) (optsArg : JwtVerifyOptionsArg)
    (h : (jsSplit '.' token).length ≠ 3) :
    Jwt.verify subtle now token secret optsArg =
      .error (.errorObj "token must consist of 3 parts") := by
  unfold Jwt.verify
  rw [if_pos h]

/-- Witness for C7: a two part token throws even with throwErr set to
false. -/
theorem verify_nonthree_parts_throws_witness :
    (jsSplit '.' "a.b".data).length ≠ 3 ∧
    Jwt.verify (unitSubtle true) 0 "a.b".data "s".data (.obj none (some false)) =
      .error (.errorObj "token must consist of 3 parts") :=
  ⟨by decide, verify_nonthree_parts_throws (unitSubtle true) 0 "a.b".data "s".data
    (.obj none (some false)) (by decide)⟩

/-- C8: base64url round trip: parse inverts stringify on every byte
sequence. -/
theorem base64url_roundtrip (b : List Nat) (hb : ∀ x ∈ b, x < 256) :
    Base64URL.parse (Base64URL.stringify b) = some b :=
  parse_stringify b hb

/-- Witness for C8 on a four byte sequence, whose standard base64 encoding
carries two padding characters. -/
theorem base64url_roundtrip_witness :
    (∀ x ∈ [0, 1, 250, 255], x < 256) ∧
    Base64URL.parse (Base64URL.stringify [0, 1, 250, 255]) = some [0, 1, 250, 255] :=
  ⟨by decide, base64url_roundtrip [0, 1, 250, 255] (by decide)⟩

/-- C9: a three part token whose payload segment decodes to a falsy JSON
value takes the PARSE_ERROR outcome: verify throws PARSE_ERROR when
throwErr is set and returns false otherwise, never reaching the signature
check. -/
theorem verify_falsy_payload_parse_error {K : Type} (subtle : SubtleCrypto K) (now : Int)
    (token secret : List Char) (optsArg : JwtVerifyOptionsArg) (ap : AlgParams)
    (decoded : Jwt.JwtData)
    (hsplit : (jsSplit '.' token).length = 3)
    (halg : Jwt.algorithms (normVerifyOptions optsArg).algorithm = some ap)
    (hdec : Jwt.decode token = .ok decoded)
    (hfalsy : decoded.payload.truthy = false) :
    Jwt.verify subtle now token secret optsArg =
      (if (normVerifyOptions optsArg).throwErr then .error (.strTag "PARSE_ERROR")
       else .ok false) := by
  unfold Jwt.verify
  rw [if_neg (fun hc => hc hsplit), halg, hdec]
  simp [hfalsy]

/-- Witness for C9: a token whose payload segment holds the literal 0 is
reported PARSE_ERROR under throwErr even though the primitive would accept
the signature. -/
theorem verify_falsy_payload_parse_error_witness :
    (jsSplit '.' "e30.MA.AA".data).length = 3 ∧
    Jwt.algorithms (normVerifyOptions (.obj none (some true))).algorithm =
      some ⟨"HMAC", none, "SHA-256"⟩ ∧
    Jwt.decode "e30.MA.AA".data = .ok ⟨.jobj .nil, .jnum 0⟩ ∧
    (Json.jnum 0).truthy = false ∧
    Jwt.verify (unitSubtle true) 0 "e30.MA.AA".data "s".data (.obj none (some true)) =
      .error (.strTag "PARSE_ERROR") :=
  ⟨by decide, rfl, rfl, rfl,
    verify_falsy_payload_parse_error (unitSubtle true) 0 "e30.MA.AA".data "s".data
      (.obj none (some true)) ⟨"HMAC", none, "SHA-256"⟩ ⟨.jobj .nil, .jnum 0⟩
      (by decide) rfl rfl rfl⟩

/-- C10: decode reads only the first two dot separated segments: two tokens
agreeing on those decode identically, whatever their remaining segments. -/
theorem decode_depends_on_first_two_segments (t1 t2 : List Char)
    (h0 : (jsSplit '.' t1)[0]? = (jsSplit '.' t2)[0]?)
    (h1 : (jsSplit '.' t1)[1]? = (jsSplit '.' t2)[1]?) :
    Jwt.decode t1 = Jwt.decode t2 := by
  unfold Jwt.decode
  rw [h0, h1]

/-- Witness for C10: two tokens differing in the signature segment and in
the number of extra segments decode identically. -/
theorem decode_depends_on_first_two_segments_witness :
    (jsSplit '.' "e30.MQ.AA".data)[0]? = (jsSplit '.' "e30.MQ.ZZ.qq".data)[0]? ∧
    (jsSplit '.' "e30.MQ.AA".data)[1]? = (jsSplit '.' "e30.MQ.ZZ.qq".data)[1]? ∧
    Jwt.decode "e30.MQ.AA".data = Jwt.decode "e30.MQ.ZZ.qq".data :=
  ⟨by decide, by decide, decode_depends_on_first_two_segments "e30.MQ.AA".data
    "e30.MQ.ZZ.qq".data (by decide) (by decide)⟩
